import Mathlib

/-!
Verification of the valorant_rag ingestion/retrieval core.

The Python sources under `src/ingest` and `src/rag` are shallowly embedded
below.  Python strings are modelled as Lean `String` (a list of characters),
machine-independent string primitives (`str.lower`, `str.strip`, `str.split`,
substring tests, the two fixed regular expressions) are implemented here as
structurally recursive functions over `List Char` so that every definition is
executable by the kernel.  The Neo4j graph store is modelled as explicit lists
of nodes and edges, and every Cypher statement the code issues is embedded as a
pure state transformer over that model.
-/

/-! ### Character-level string primitives (Python semantics) -/

/-- Python `needle in hay` prefix step: does `n` lead the list `h`? -/
def leadMatch : List Char → List Char → Bool
  | [], _ => true
  | _ :: _, [] => false
  | a :: as, b :: bs => a == b && leadMatch as bs

/-- Python `needle in hay` over character lists. -/
def containsSubL (n : List Char) : List Char → Bool
  | [] => n.isEmpty
  | c :: t => leadMatch n (c :: t) || containsSubL n t

/-- Python `needle in hay` for strings. -/
def strContains (hay needle : String) : Bool := containsSubL needle.data hay.data

/-- Python `str.lower()` (ASCII case folding, as used by the sources). -/
def pyLower (s : String) : String := ⟨s.data.map Char.toLower⟩

/-- Python `str.strip()` over character lists. -/
def pyStripL (cs : List Char) : List Char :=
  ((cs.dropWhile Char.isWhitespace).reverse.dropWhile Char.isWhitespace).reverse

/-- Python `str.strip()`. -/
def pyStrip (s : String) : String := ⟨pyStripL s.data⟩

/-- Python `str.startswith(pre)`. -/
def pyStartsWith (s pre : String) : Bool := leadMatch pre.data s.data

/-- Helper for Python `str.split()`: split on whitespace runs, dropping empties.
`cur` is the reversed word currently being accumulated. -/
def wordsAux (cur : List Char) : List Char → List String
  | [] => if cur.isEmpty then [] else [⟨cur.reverse⟩]
  | c :: t =>
    if c.isWhitespace then
      if cur.isEmpty then wordsAux [] t else ⟨cur.reverse⟩ :: wordsAux [] t
    else wordsAux (c :: cur) t

/-- `simple_html.normalize_space` / `fetch_current_patch.normalize_space`:
`" ".join(value.split())`. -/
def normalize_space (s : String) : String := " ".intercalate (wordsAux [] s.data)

/-- Characters kept verbatim by `load_neo4j.normalize_for_match`'s
`[^a-z0-9]` substitution (applied after lower-casing). -/
def isLowerAlnum (c : Char) : Bool :=
  (('a' ≤ c && c ≤ 'z') || ('0' ≤ c && c ≤ '9'))

/-- `re.sub(r"[^a-z0-9]+", " ", ·)`: collapse each run of non-alphanumeric
characters to a single space.  `prevSpace` records whether the previous
character was part of such a run. -/
def collapseAux (prevSpace : Bool) : List Char → List Char
  | [] => []
  | c :: t =>
    if isLowerAlnum c then c :: collapseAux false t
    else if prevSpace then collapseAux true t
    else ' ' :: collapseAux true t

/-- `load_neo4j.normalize_for_match`:
`re.sub(r"[^a-z0-9]+", " ", value.lower()).strip()`. -/
def normalize_for_match (value : String) : String :=
  pyStrip ⟨collapseAux false (pyLower value).data⟩

/-- One-position match of the regex `\d{4}-\d{2}-\d{2}t\d{2}:\d{2}`
used by `parse_patch.should_keep_change` (searched over the lowered text). -/
def isoDateTimeAt : List Char → Bool
  | y1 :: y2 :: y3 :: y4 :: '-' :: m1 :: m2 :: '-' :: d1 :: d2 :: 't'
      :: h1 :: h2 :: ':' :: n1 :: n2 :: _ =>
    y1.isDigit && y2.isDigit && y3.isDigit && y4.isDigit && m1.isDigit &&
      m2.isDigit && d1.isDigit && d2.isDigit && h1.isDigit && h2.isDigit &&
      n1.isDigit && n2.isDigit
  | _ => false

/-- `re.search` for the ISO date-time pattern: try every start position. -/
def containsIsoL : List Char → Bool
  | [] => false
  | c :: t => isoDateTimeAt (c :: t) || containsIsoL t

/-- ISO date-time containment on strings. -/
def containsIso (s : String) : Bool := containsIsoL s.data

/-! ### `simple_html.py` data model

The tokenizer (`_Collector`) is driven by Python's standard-library
`html.parser.HTMLParser`, an external collaborator; its output shape is what
the segmenter and link extractor consume.  We embed that output shape
(`ElementEvent`, `ParsedHTML`) and quantify claims over all such values,
which covers every value the tokenizer can produce. -/

/-- `simple_html.ElementEvent`. -/
structure ElementEvent where
  tag : String
  attrs : List (String × String)
  text : String
  parents : List String
  deriving Repr, DecidableEq

/-- `simple_html.ParsedHTML`. -/
structure ParsedHTML where
  title : Option String
  metas : List (List (String × String))
  events : List ElementEvent
  deriving Repr, DecidableEq

/-- Attribute lookup, Python's `dict.get(key)` over an attribute mapping
(first binding wins, as in a dict built from unique keys). -/
def attrGet (attrs : List (String × String)) (key : String) : Option String :=
  (attrs.find? (fun kv => kv.1 == key)).map (·.2)

/-! ### `parse_patch.py` definitions -/

/-- `parse_patch.NOISE_HEADINGS`. -/
def NOISE_HEADINGS : List String :=
  ["share", "copy link", "riot games", "news", "play now", "related articles"]

/-- `parse_patch.NOISE_CHANGES`. -/
def NOISE_CHANGES : List String :=
  ["share", "copy link", "read more", "learn more"]

/-- Python `\w` word characters (ASCII view), for the `\b` boundaries of
`PATCH_ID_RE`. -/
def isWordChar (c : Char) : Bool := c.isAlphanum || c == '_'

/-- `\b` to the right of a just-consumed word character: next char (if any)
must not be a word character. -/
def boundaryAfter : List Char → Bool
  | [] => true
  | c :: _ => !isWordChar c

/-- Numeric value of a digit character. -/
def digitVal (c : Char) : Nat := c.toNat - '0'.toNat

/-- Match `(\d{1,2})\b`-style group 2 of `PATCH_ID_RE` greedily (two digits
preferred, then one), requiring a word boundary after the last digit. -/
def matchMinor : List Char → Option Nat
  | a :: b :: rest =>
    if a.isDigit && b.isDigit && boundaryAfter rest then some (10 * digitVal a + digitVal b)
    else if a.isDigit && boundaryAfter (b :: rest) then some (digitVal a)
    else none
  | [a] => if a.isDigit then some (digitVal a) else none
  | [] => none

/-- After group 1, match `[.-]` then the minor group. -/
def matchSepMinor : List Char → Option Nat
  | c :: rest => if c == '.' || c == '-' then matchMinor rest else none
  | [] => none

/-- Match `(\d{1,2})[.-](\d{1,2})\b` at the current position (boundary before
the position is checked by the caller): greedy two-digit major first, then
backtrack to a one-digit major. -/
def matchPatchIdHere : List Char → Option (Nat × Nat)
  | a :: b :: rest =>
    if a.isDigit then
      match (if b.isDigit then matchSepMinor rest else none) with
      | some minor => some (10 * digitVal a + digitVal b, minor)
      | none =>
        match matchSepMinor (b :: rest) with
        | some minor => some (digitVal a, minor)
        | none => none
    else none
  | _ => none

/-- `re.search` scan for `PATCH_ID_RE`: leftmost start position wins.
`prev` is the character just before the current position (for `\b`). -/
def searchPatchId (prev : Option Char) : List Char → Option (Nat × Nat)
  | [] => none
  | c :: t =>
    let boundaryHere := match prev with
      | none => isWordChar c
      | some p => (!isWordChar p && isWordChar c) || (isWordChar p && !isWordChar c)
    match (if boundaryHere then matchPatchIdHere (c :: t) else none) with
    | some r => some r
    | none => searchPatchId (some c) t

/-- Format `f"{major}.{minor:02d}"`. -/
def formatPatchId (major minor : Nat) : String :=
  toString major ++ "." ++ (if minor < 10 then "0" ++ toString minor else toString minor)

/-- `parse_patch.find_patch_id`: first argument whose text contains a
`major[.-]minor` version, formatted with zero-padded minor. -/
def find_patch_id (values : List String) : Option String :=
  match values with
  | [] => none
  | v :: rest =>
    match searchPatchId none v.data with
    | some (major, minor) => some (formatPatchId major minor)
    | none => find_patch_id rest

/-- `parse_patch.scoped_events`: restrict to events under `article`, else
under `main`, else all events. -/
def scoped_events (parsed : ParsedHTML) : List ElementEvent :=
  if parsed.events.any (fun e => e.parents.contains "article") then
    parsed.events.filter (fun e => e.parents.contains "article")
  else if parsed.events.any (fun e => e.parents.contains "main") then
    parsed.events.filter (fun e => e.parents.contains "main")
  else parsed.events

/-- Loop body of `parse_patch.extract_meta`. -/
def extractMetaGo (key value : String) : List (List (String × String)) → Option String
  | [] => none
  | meta :: rest =>
    if attrGet meta key == some value then
      let content := normalize_space ((attrGet meta "content").getD "")
      if content ≠ "" then some content else extractMetaGo key value rest
    else extractMetaGo key value rest

/-- `parse_patch.extract_meta`: first meta entry with `key == value` whose
normalized `content` is non-empty. -/
def extract_meta (parsed : ParsedHTML) (key value : String) : Option String :=
  extractMetaGo key value parsed.metas

/-- `parse_patch.extract_title`. -/
def extract_title (parsed : ParsedHTML) (events : List ElementEvent) : String :=
  match extract_meta parsed "property" "og:title" with
  | some t => t
  | none =>
    match events.find? (fun e => e.tag == "h1" && e.text != "") with
    | some e => e.text
    | none =>
      match parsed.title with
      | some t => if t ≠ "" then t else "Valorant Patch Notes"
      | none => "Valorant Patch Notes"

/-- `parse_patch.extract_published_at`. -/
def extract_published_at (parsed : ParsedHTML) (events : List ElementEvent) :
    Option String :=
  match extract_meta parsed "property" "article:published_time" with
  | some t => some t
  | none =>
    match events.find? (fun e =>
        e.tag == "time" && ((attrGet e.attrs "datetime").getD "" != "" || e.text != "")) with
    | some e =>
      if (attrGet e.attrs "datetime").getD "" ≠ "" then
        some (normalize_space ((attrGet e.attrs "datetime").getD ""))
      else some e.text
    | none => none

/-- `parse_patch.should_keep_heading`. -/
def should_keep_heading (text : String) : Bool :=
  let normalized := pyStrip (pyLower text)
  if normalized = "" then false
  else !(NOISE_HEADINGS.contains normalized)

/-- `parse_patch.should_keep_change`. -/
def should_keep_change (text : String) : Bool :=
  let normalized := pyStrip (pyLower text)
  if normalized = "" then false
  else if NOISE_CHANGES.contains normalized then false
  else if pyStartsWith normalized "related articles" then false
  else if strContains normalized "game updates" && strContains normalized "patch notes" then false
  else if containsIso normalized then false
  else if normalized.length < 12 then false
  else if normalized.length > 500 then false
  else true

/-! ### `parse_patch.parse_patch_notes_html` -/

/-- Patch metadata (`patch_doc["patch"]`); `title`/`url`/`published_at`
are read with `.get` downstream, hence `Option`. -/
structure PatchMeta where
  id : String
  title : Option String
  url : Option String
  published_at : Option String
  deriving Repr, DecidableEq

/-- One change entry of a parsed patch document. -/
structure ChangeRow where
  id : String
  text : String
  section_name : String
  source_url : String
  order : Nat
  deriving Repr, DecidableEq

/-- One section of a parsed patch document. -/
structure SectionRow where
  id : String
  name : String
  order : Nat
  changes : List ChangeRow
  deriving Repr, DecidableEq

/-- A parsed patch document (`{"patch": ..., "sections": ...}`). -/
structure PatchDoc where
  patch : PatchMeta
  sections : List SectionRow
  deriving Repr, DecidableEq

/-- A raw section accumulated during the segmentation walk
(`{"name": ..., "changes": [...]}`). -/
structure RawSection where
  name : String
  changes : List String
  deriving Repr, DecidableEq

/-- Append a change text to the current (= last) raw section, mirroring the
in-place `current_section["changes"].append(text)`. -/
def appendToLast : List RawSection → String → List RawSection
  | [], _ => []
  | [r], t => [⟨r.name, r.changes ++ [t]⟩]
  | r :: r2 :: rest, t => r :: appendToLast (r2 :: rest) t

/-- The segmentation loop of `parse_patch.parse_patch_notes_html`
(lines 126-150).  `secs` is `raw_sections` (the current section is its last
element, as in the source, where every new section is appended and becomes
current), `seen` is the `seen_changes` dedupe set. -/
def segmentWalk : List ElementEvent → List RawSection → List (String × String) → List RawSection
  | [], secs, _ => secs
  | e :: rest, secs, seen =>
    if ¬ (e.tag = "h2" ∨ e.tag = "h3" ∨ e.tag = "li" ∨ e.tag = "p") then
      segmentWalk rest secs seen
    else
      let text := normalize_space e.text
      if text = "" then segmentWalk rest secs seen
      else if e.tag = "h2" ∨ e.tag = "h3" then
        if pyStrip (pyLower text) = "related articles" then secs
        else if should_keep_heading text then
          segmentWalk rest (secs ++ [⟨text, []⟩]) seen
        else segmentWalk rest secs seen
      else if e.tag = "p" ∧ e.parents.contains "li" then segmentWalk rest secs seen
      else if should_keep_change text then
        let name := (secs.getLastD ⟨"General", []⟩).name
        if (name, text) ∈ seen then segmentWalk rest secs seen
        else segmentWalk rest (appendToLast secs text) ((name, text) :: seen)
      else segmentWalk rest secs seen

/-- The raw section list produced by the walk, starting from the implicit
`General` section and an empty dedupe set. -/
def rawSectionsOf (events : List ElementEvent) : List RawSection :=
  segmentWalk events [⟨"General", []⟩] []

/-- Build the change dicts of one retained section
(`for change_index, change_text in enumerate(...)`). -/
def mkChanges (sid sname url : String) : Nat → List String → List ChangeRow
  | _, [] => []
  | i, t :: rest =>
    ⟨sid ++ "-c" ++ toString i, t, sname, url, i⟩ :: mkChanges sid sname url (i + 1) rest

/-- Build one retained section dict: `m` is `len(sections)` at append time,
`i` the enumerate index over `raw_sections`. -/
def mkSec (pid url : String) (m i : Nat) (r : RawSection) : SectionRow :=
  let sid := pid ++ "-s" ++ toString m
  ⟨sid, r.name, i, mkChanges sid r.name url 0 r.changes⟩

/-- The post-processing loop of `parse_patch.parse_patch_notes_html`
(lines 152-179): enumerate raw sections from index `i`, skip empty ones,
append the rest to `acc` (ids keyed by `acc.length`). -/
def buildSections (pid url : String) : Nat → List RawSection → List SectionRow → List SectionRow
  | _, [], acc => acc
  | i, r :: rest, acc =>
    if r.changes.isEmpty then buildSections pid url (i + 1) rest acc
    else buildSections pid url (i + 1) rest (acc ++ [mkSec pid url acc.length i r])

/-- `parse_patch.parse_patch_notes_html`, from the tokenizer output onward. -/
def parse_patch_notes_html (parsed : ParsedHTML) (source_url : String) : PatchDoc :=
  let events := scoped_events parsed
  let title := extract_title parsed events
  let patch_id := (find_patch_id [title, source_url]).getD "latest"
  let published_at := extract_published_at parsed events
  let raw := rawSectionsOf events
  { patch := ⟨patch_id, some title, some source_url, published_at⟩
    sections := buildSections patch_id source_url 0 raw [] }

/-! ### Stable sorting (Python `list.sort` / `sorted` semantics)

Python's sort is stable.  A stable sort for a total preorder is implemented
here as structural insertion sort: a later element is inserted after all
earlier elements that compare `le` to it. -/

/-- Insert `x` into `l` before the first element `y` with `le x y`;
elements equal to `x` under the preorder stay before it. -/
def orderedInsertB (le : α → α → Bool) (x : α) : List α → List α
  | [] => [x]
  | y :: t => if le x y then x :: y :: t else y :: orderedInsertB le x t

/-- Stable insertion sort with respect to a Boolean total preorder. -/
def pySort (le : α → α → Bool) : List α → List α
  | [] => []
  | x :: rest => orderedInsertB le x (pySort le rest)

/-! ### `fetch_current_patch.extract_current_patch_link` (lines 35-91)

The anchor-collection loop resolves URLs with the standard library's
`urljoin` (external) and builds the candidate list; the claims quantify over
that list directly, so the embedding starts from the candidates. -/

/-- One candidate built by the collection loop of
`extract_current_patch_link`: `order` is the enumerate index of its anchor. -/
structure Candidate where
  title : String
  url : String
  patch_tuple : Option (Nat × Nat)
  order : Nat
  deriving Repr, DecidableEq

/-- The comparator realising `versioned.sort(key=(major, minor, -order),
reverse=True)`: descending by `(major, minor)`, ascending by `order` among
equal versions (the unversioned default is never consulted because the list
sorted this way contains only candidates with a parsed version). -/
def candBefore (a b : Candidate) : Bool :=
  let pa := a.patch_tuple.getD (0, 0)
  let pb := b.patch_tuple.getD (0, 0)
  if pa.1 ≠ pb.1 then decide (pb.1 < pa.1)
  else if pa.2 ≠ pb.2 then decide (pb.2 < pa.2)
  else decide (a.order ≤ b.order)

/-- Python `min(candidates, key=lambda item: item["order"])`: first element
with minimal order (ties keep the earlier element). -/
def pyMinByOrder (c : Candidate) (rest : List Candidate) : Candidate :=
  rest.foldl (fun best x => if x.order < best.order then x else best) c

/-- The ranking step of `extract_current_patch_link` (lines 69-84):
`none` corresponds to the `ValueError` raised on an empty candidate list. -/
def selectCurrentPatch (candidates : List Candidate) : Option Candidate :=
  match candidates with
  | [] => none
  | c :: rest =>
    let versioned := candidates.filter (fun item => item.patch_tuple.isSome)
    match versioned with
    | [] => some (pyMinByOrder c rest)
    | _ :: _ =>
      match pySort candBefore versioned with
      | [] => none
      | sel :: _ => some sel

/-! ### `load_neo4j.py`: graph store model

The Neo4j store is modelled as lists of nodes (keyed by `id`/`uuid`) and
lists of edges (key pairs).  Each Cypher statement the loader issues is
embedded as a pure state transformer: `MERGE` on a key updates the matching
node in place or appends a new one; `MERGE` on an edge appends it when
absent; `MATCH`-gated statements are no-ops when the anchor node is missing;
`DETACH DELETE` removes the nodes and every incident edge.  The schema file
(`src/cypher/constraints_and_indexes.cypher`, uniqueness constraints) is
represented by the `StoreNodup` well-formedness predicate. -/

/-- Lexicographic `<=` on character lists. -/
def leCharList : List Char → List Char → Bool
  | [], _ => true
  | _ :: _, [] => false
  | a :: as, b :: bs => if a = b then leCharList as bs else decide (a < b)

/-- Python string `<=` (lexicographic over code points), kernel-reducible. -/
def leStr (a b : String) : Bool := leCharList a.data b.data

/-- A roster agent (row of the agents JSON) and, with the same property set,
a stored `Agent` node (`upsert_agents` overwrites all properties). -/
structure Agent where
  uuid : String
  name : String
  role : Option String
  icon_url : Option String
  abilities : List String
  aliases : List String
  deriving Repr, DecidableEq

/-- A `Patch` node. -/
structure PatchNode where
  id : String
  title : Option String
  url : Option String
  published_at : Option String
  deriving Repr, DecidableEq

/-- A `Section` node. -/
structure SectionNode where
  id : String
  name : String
  order : Nat
  patch_id : String
  deriving Repr, DecidableEq

/-- A `Change` node. -/
structure ChangeNode where
  id : String
  text : String
  section_name : String
  source_url : String
  order : Nat
  deriving Repr, DecidableEq

/-- The graph store: node lists plus `HAS_SECTION`, `HAS_CHANGE` and
`MENTIONS_AGENT` edge lists (source key, target key). -/
structure Store where
  patches : List PatchNode
  sections : List SectionNode
  changes : List ChangeNode
  agents : List Agent
  hasSection : List (String × String)
  hasChange : List (String × String)
  mentions : List (String × String)
  deriving Repr, DecidableEq

/-- `MERGE (a:Agent {uuid: row.uuid}) SET ...`: overwrite or append. -/
def mergeAgentRow (st : Store) (row : Agent) : Store :=
  if st.agents.any (fun a => a.uuid = row.uuid) then
    { st with agents := st.agents.map (fun a => if a.uuid = row.uuid then row else a) }
  else { st with agents := st.agents ++ [row] }

/-- `load_neo4j.upsert_agents` (lines 25-40). -/
def upsert_agents (st : Store) (agents : List Agent) : Store :=
  if agents.isEmpty then st else agents.foldl mergeAgentRow st

/-- The `MERGE (p:Patch {id: $id}) SET ...` statement of `upsert_patch`. -/
def mergePatchNode (st : Store) (p : PatchMeta) : Store :=
  let node : PatchNode := ⟨p.id, p.title, p.url, p.published_at⟩
  if st.patches.any (fun q => q.id = p.id) then
    { st with patches := st.patches.map (fun q => if q.id = p.id then node else q) }
  else { st with patches := st.patches ++ [node] }

/-- `load_neo4j.clear_patch_subgraph` (lines 43-53): delete the sections
reachable from the patch via `HAS_SECTION`, their changes, the mention edges
of those changes, and (via `DETACH DELETE`) every edge incident to a deleted
node. -/
def clear_patch_subgraph (st : Store) (patch_id : String) : Store :=
  if st.patches.any (fun p => p.id = patch_id) then
    let secIds := (st.sections.filter (fun s => (patch_id, s.id) ∈ st.hasSection)).map (·.id)
    let chIds := (st.changes.filter (fun c => secIds.any (fun sid => (sid, c.id) ∈ st.hasChange))).map (·.id)
    { st with
      sections := st.sections.filter (fun s => ¬ s.id ∈ secIds)
      changes := st.changes.filter (fun c => ¬ c.id ∈ chIds)
      hasSection := st.hasSection.filter (fun e => ¬ e.2 ∈ secIds)
      hasChange := st.hasChange.filter (fun e => ¬ (e.1 ∈ secIds ∨ e.2 ∈ chIds))
      mentions := st.mentions.filter (fun e => ¬ e.1 ∈ chIds) }
  else st

/-- `MERGE (s:Section {id: row.id}) SET ...`: overwrite or append. -/
def mergeSectionNode (st : Store) (patch_id : String) (row : SectionRow) : Store :=
  let node : SectionNode := ⟨row.id, row.name, row.order, patch_id⟩
  if st.sections.any (fun s => s.id = row.id) then
    { st with sections := st.sections.map (fun s => if s.id = row.id then node else s) }
  else { st with sections := st.sections ++ [node] }

/-- `MERGE (p)-[:HAS_SECTION]->(s)`: add the edge when absent. -/
def addHasSection (st : Store) (e : String × String) : Store :=
  if e ∈ st.hasSection then st else { st with hasSection := st.hasSection ++ [e] }

/-- The per-section statement of `upsert_patch` (lines 80-94): `MATCH` the
patch (no-op when absent), `MERGE` the section node by id, overwrite its
properties, `MERGE` the `HAS_SECTION` edge.  The `order` property is read
with `section.get("order", section_count - 1)` in the source; the patch
documents of the interface always carry `order`, so the default is not
modelled. -/
def createSection (st : Store) (patch_id : String) (row : SectionRow) : Store :=
  if st.patches.any (fun p => p.id = patch_id) then
    addHasSection (mergeSectionNode st patch_id row) (patch_id, row.id)
  else st

/-- `MERGE (c:Change {id: change.id}) SET ...`: overwrite or append. -/
def mergeChangeNode (st : Store) (c : ChangeRow) : Store :=
  let node : ChangeNode := ⟨c.id, c.text, c.section_name, c.source_url, c.order⟩
  if st.changes.any (fun x => x.id = c.id) then
    { st with changes := st.changes.map (fun x => if x.id = c.id then node else x) }
  else { st with changes := st.changes ++ [node] }

/-- `MERGE (s)-[:HAS_CHANGE]->(c)`: add the edge when absent. -/
def addHasChange (st : Store) (e : String × String) : Store :=
  if e ∈ st.hasChange then st else { st with hasChange := st.hasChange ++ [e] }

/-- One `MERGE (c:Change {id}) SET ... MERGE (s)-[:HAS_CHANGE]->(c)` step of
the batched per-section change statement. -/
def mergeChangeRow (sid : String) (st : Store) (c : ChangeRow) : Store :=
  addHasChange (mergeChangeNode st c) (sid, c.id)

/-- The batched change statement of `upsert_patch` (lines 101-115): `MATCH`
the section (no-op when absent), then `UNWIND` the changes. -/
def createChanges (st : Store) (sid : String) (rows : List ChangeRow) : Store :=
  if st.sections.any (fun s => s.id = sid) then rows.foldl (mergeChangeRow sid) st
  else st

/-- `load_neo4j.upsert_patch` (lines 56-117): upsert the patch node, clear
its old subgraph, recreate sections and changes, return
`(section_count, change_count)`. -/
def upsert_patch (st : Store) (doc : PatchDoc) : Store × Nat × Nat :=
  let st1 := mergePatchNode st doc.patch
  let st2 := clear_patch_subgraph st1 doc.patch.id
  let st3 := doc.sections.foldl (fun st row =>
    let stA := createSection st doc.patch.id row
    if row.changes.isEmpty then stA else createChanges stA row.id row.changes) st2
  (st3, doc.sections.length, (doc.sections.map (fun s => s.changes.length)).sum)

/-- `aliases = agent.get("aliases") or [agent.get("name")]`: an empty alias
list is falsy and falls back to the bare name. -/
def aliasListOf (a : Agent) : List String :=
  if a.aliases.isEmpty then [a.name] else a.aliases

/-- The per-alias test of `detect_agent_mentions`: skip aliases whose
normalized form is shorter than 3, then test space-delimited containment in
the space-padded normalized text `nt`. -/
def aliasMatches (nt : List Char) (alias0 : String) : Bool :=
  let na := (normalize_for_match alias0).data
  if na.length < 3 then false
  else containsSubL (' ' :: na ++ [' ']) nt

/-- `load_neo4j.detect_agent_mentions` (lines 120-140): collect the uuid of
every agent with a matching alias (once per agent), then
`sorted(set(matched_uuids))`. -/
def detect_agent_mentions (change_text : String) (agents : List Agent) : List String :=
  let nt : List Char := ' ' :: (normalize_for_match change_text).data ++ [' ']
  if pyStripL nt = [] then []
  else
    let matched := agents.filterMap (fun a =>
      if a.uuid = "" then none
      else if (aliasListOf a).any (aliasMatches nt) then some a.uuid else none)
    pySort (fun x y => leStr x y) matched.dedup


/-- The row list of the `MATCH (p)-[:HAS_SECTION]->(:Section)-[:HAS_CHANGE]->
(c:Change) RETURN c.id, c.text` query of `relink_patch_agent_mentions`:
one row per section/change path, in store order. -/
def pathRecords (st : Store) (patch_id : String) : List (String × String) :=
  if st.patches.any (fun p => p.id = patch_id) then
    (st.sections.filter (fun s => (patch_id, s.id) ∈ st.hasSection)).flatMap (fun s =>
      (st.changes.filter (fun c => (s.id, c.id) ∈ st.hasChange)).map (fun c => (c.id, c.text)))
  else []

/-- `MERGE (c)-[:MENTIONS_AGENT]->(a)` for one uuid: the agent node must
exist (`MATCH (a:Agent {uuid})`), the edge is added when absent. -/
def mergeMention (cid : String) (st : Store) (uuid : String) : Store :=
  if st.agents.any (fun a => a.uuid = uuid) then
    if (cid, uuid) ∈ st.mentions then st
    else { st with mentions := st.mentions ++ [(cid, uuid)] }
  else st

/-- The per-record body of the relink loop (lines 164-181): detect mentions
in the stored change text, `MATCH` the change node and `MERGE` one edge per
detected uuid, and add `len(mentioned_agent_uuids)` to the running count. -/
def relinkStep (agents : List Agent) (acc : Store × Nat) (rec : String × String) : Store × Nat :=
  let uuids := detect_agent_mentions rec.2 agents
  if uuids.isEmpty then acc
  else
    let st' := if acc.1.changes.any (fun c => c.id = rec.1) then
        uuids.foldl (mergeMention rec.1) acc.1
      else acc.1
    (st', acc.2 + uuids.length)

/-- `load_neo4j.relink_patch_agent_mentions` (lines 143-183): with a falsy
roster return 0 immediately; otherwise delete the `MENTIONS_AGENT` edges of
the patch's path changes (the delete pattern requires the target `:Agent`
node to exist), re-read the change rows, and re-derive the edges. -/
def relink_patch_agent_mentions (st : Store) (patch_id : String) (agents : List Agent) :
    Store × Nat :=
  if agents.isEmpty then (st, 0)
  else
    let pathIds := (pathRecords st patch_id).map (·.1)
    let st1 : Store := { st with
      mentions := st.mentions.filter (fun e =>
        ¬ (e.1 ∈ pathIds ∧ st.agents.any (fun a => a.uuid = e.2))) }
    (pathRecords st1 patch_id).foldl (relinkStep agents) (st1, 0)

/-- The session body of `load_neo4j.load_to_neo4j` (lines 208-210), without
the optional wipe and schema steps: upsert agents, upsert the patch,
relink mentions.  Returns the store and
`(section_count, change_count, links_created)`. -/
def materializeSession (st : Store) (doc : PatchDoc) (agents : List Agent) :
    Store × Nat × Nat × Nat :=
  let st1 := upsert_agents st agents
  let r := upsert_patch st1 doc
  let r2 := relink_patch_agent_mentions r.1 doc.patch.id agents
  (r2.1, r.2.1, r.2.2, r2.2)

/-- Uniqueness of natural keys and edges: the store invariant established by
the schema's constraints (`constraints_and_indexes.cypher`) and preserved by
every loader operation. -/
def StoreNodup (st : Store) : Prop :=
  (st.patches.map (·.id)).Nodup ∧ (st.sections.map (·.id)).Nodup ∧
  (st.changes.map (·.id)).Nodup ∧ (st.agents.map (·.uuid)).Nodup ∧
  st.hasSection.Nodup ∧ st.hasChange.Nodup ∧ st.mentions.Nodup

instance : DecidablePred StoreNodup := fun st => by
  unfold StoreNodup; infer_instance

/-! ### `rag/retriever.py` -/

/-- `retriever.RetrievedChange` (scores are exact rationals here; the only
scores the modelled paths produce are the constants 1.0 and 10.0). -/
structure RetrievedChange where
  change_id : String
  patch_id : String
  section_name : String
  text : String
  source_url : String
  score : ℚ
  agents : List String
  deriving Repr, DecidableEq

/-- A row returned by a retrieval query, before `_record_to_change`. -/
structure QueryRow where
  change_id : String
  patch_id : String
  section_name : String
  text : String
  source_url : String
  agents : List String
  score : ℚ
  deriving Repr, DecidableEq

/-- An error raised by the store client.  `isNeo4jError` says whether the
exception is an instance of the `Neo4jError` class; `indexMissing` whether it
is specifically the error signalling that the full-text index does not
exist. -/
structure StoreErr where
  isNeo4jError : Bool
  indexMissing : Bool
  deriving Repr, DecidableEq

/-- `GraphRetriever._record_to_change`: falsy (empty) agent names are
dropped. -/
def record_to_change (r : QueryRow) : RetrievedChange :=
  ⟨r.change_id, r.patch_id, r.section_name, r.text, r.source_url, r.score,
    r.agents.filter (fun a => ¬ a = "")⟩

/-- `coalesce(a.aliases, [a.name])` in `_resolve_agents`: the stored alias
list (a Cypher `null` never arises here because `upsert_agents` always sets
the property). -/
def coalesceAliases (a : Agent) : List String := a.aliases

/-- `GraphRetriever._resolve_agents` (lines 54-65): agents one of whose
aliases is a case-insensitive substring of the query, as `DISTINCT
(uuid, name)` rows, ordered by `size(name)` descending, `LIMIT 4`. -/
def resolve_agents (st : Store) (query : String) : List (String × String) :=
  let matched := st.agents.filter (fun a =>
    (coalesceAliases a).any (fun alias0 => strContains (pyLower query) (pyLower alias0)))
  let rows := (matched.map (fun a => (a.uuid, a.name))).dedup
  (pySort (fun x y => decide (y.2.length ≤ x.2.length)) rows).take 4

/-- The `(p, s, c)` paths of the fallback query of `_query_by_fulltext`
(lines 125-143), before filtering. -/
def fallbackPaths (st : Store) : List (PatchNode × SectionNode × ChangeNode) :=
  st.patches.flatMap (fun p =>
    (st.sections.filter (fun s => (p.id, s.id) ∈ st.hasSection)).flatMap (fun s =>
      (st.changes.filter (fun c => (s.id, c.id) ∈ st.hasChange)).map (fun c => (p, s, c))))

/-- The `WHERE` clause of the fallback query: case-insensitive substring
match against the change text or the section name. -/
def fallbackMatch (query : String) (path : PatchNode × SectionNode × ChangeNode) : Bool :=
  strContains (pyLower path.2.2.text) (pyLower query) ||
    strContains (pyLower path.2.1.name) (pyLower query)

/-- `ORDER BY s.order ASC, c.order ASC` of the fallback query. -/
def fallbackLe (a b : PatchNode × SectionNode × ChangeNode) : Bool :=
  decide (a.2.1.order < b.2.1.order) ||
    (decide (a.2.1.order = b.2.1.order) && decide (a.2.2.order ≤ b.2.2.order))

/-- The matching paths of the fallback query in sorted order. -/
def fallbackSorted (st : Store) (query : String) :
    List (PatchNode × SectionNode × ChangeNode) :=
  pySort fallbackLe ((fallbackPaths st).filter (fallbackMatch query))

/-- `collect(DISTINCT a.name)` over `OPTIONAL MATCH
(c)-[:MENTIONS_AGENT]->(a:Agent)`. -/
def mentionedNames (st : Store) (cid : String) : List String :=
  ((st.agents.filter (fun a => (cid, a.uuid) ∈ st.mentions)).map (·.name)).dedup

/-- The substring-fallback query of `_query_by_fulltext`: fixed score `1.0`,
ordered by `(sectionOrder, changeOrder)`, truncated to `k`, then converted by
`_record_to_change`. -/
def fallbackQuery (st : Store) (query : String) (k : Nat) : List RetrievedChange :=
  ((fallbackSorted st query).take k).map (fun path =>
    record_to_change
      ⟨path.2.2.id, path.1.id, path.2.1.name, path.2.2.text, path.2.2.source_url,
        mentionedNames st path.2.2.id, 1⟩)

/-- `GraphRetriever._query_by_fulltext` (lines 99-144).  The full-text store
call is an external capability; its outcome (rows, or a raised error) is the
`ft` argument.  The `try`/`except Neo4jError` converts every `Neo4jError`
into the fallback query; any other exception propagates. -/
def query_by_fulltext (st : Store) (ft : Except StoreErr (List QueryRow))
    (query : String) (k : Nat) : Except StoreErr (List RetrievedChange) :=
  match ft with
  | Except.ok rows => Except.ok (rows.map record_to_change)
  | Except.error e =>
    if e.isNeo4jError then Except.ok (fallbackQuery st query k)
    else Except.error e

/-! ### Closed forms and specification predicates used in the claims -/

/-- Closed form of `buildSections`: `i` is the enumerate index over the raw
sections, `n` the number of sections already retained. -/
def sectionsFrom (pid url : String) : Nat → Nat → List RawSection → List SectionRow
  | _, _, [] => []
  | i, n, r :: rest =>
    if r.changes.isEmpty then sectionsFrom pid url (i + 1) n rest
    else mkSec pid url n i r :: sectionsFrom pid url (i + 1) (n + 1) rest

/-- Pair each element with its index, starting at `i`. -/
def withIdx (i : Nat) : List α → List (Nat × α)
  | [] => []
  | x :: t => (i, x) :: withIdx (i + 1) t

/-- All `(section name, change text)` pairs of a raw section list, in order. -/
def pairsOf (secs : List RawSection) : List (String × String) :=
  secs.flatMap (fun r => r.changes.map (fun t => (r.name, t)))

/-- The rejection condition of `should_keep_change` as stated by the claim,
over the lower-cased stripped text. -/
def keepChangeRejected (text : String) : Prop :=
  let n := pyStrip (pyLower text)
  n = "" ∨ n ∈ NOISE_CHANGES ∨ pyStartsWith n "related articles" = true ∨
    (strContains n "game updates" = true ∧ strContains n "patch notes" = true) ∨
    containsIso n = true ∨ n.length < 12 ∨ 500 < n.length

/-- The claim's mention condition: some alias of the agent, normalized and of
normalized length at least 3, occurs space-delimited in the space-padded
normalized change text. -/
def mentionCond (a : Agent) (text : String) : Prop :=
  ∃ al ∈ aliasListOf a, 3 ≤ (normalize_for_match al).length ∧
    containsSubL (' ' :: (normalize_for_match al).data ++ [' '])
      (' ' :: (normalize_for_match text).data ++ [' ']) = true

/-- Lexicographic order on `(major, minor)` version pairs. -/
def verLe (v w : Nat × Nat) : Prop := v.1 < w.1 ∨ (v.1 = w.1 ∧ v.2 ≤ w.2)

/-- The entity-resolution match condition of `_resolve_agents`: some alias is
a case-insensitive substring of the query. -/
def agentQueryMatch (query : String) (a : Agent) : Prop :=
  ∃ al ∈ coalesceAliases a, strContains (pyLower query) (pyLower al) = true

/-- The `DISTINCT (uuid, name)` rows matched by `_resolve_agents`, before
ordering and truncation. -/
def resolveRows (st : Store) (query : String) : List (String × String) :=
  ((st.agents.filter (fun a =>
    (coalesceAliases a).any (fun alias0 => strContains (pyLower query) (pyLower alias0)))).map
      (fun a => (a.uuid, a.name))).dedup

/-- The mention edges `relink_patch_agent_mentions` derives from the roster:
for each change row of the patch, one edge per detected agent uuid. -/
def derivedMentions (st : Store) (patch_id : String) (agents : List Agent) :
    List (String × String) :=
  (pathRecords st patch_id).flatMap (fun rec =>
    (detect_agent_mentions rec.2 agents).map (fun u => (rec.1, u)))

/-- The mention edges kept by the delete statement of
`relink_patch_agent_mentions`. -/
def mentionsAfterClear (st : Store) (patch_id : String) : List (String × String) :=
  st.mentions.filter (fun e =>
    ¬ (e.1 ∈ (pathRecords st patch_id).map (·.1) ∧ st.agents.any (fun a => a.uuid = e.2)))

/-! ### General helper lemmas -/

theorem mem_orderedInsertB (le : α → α → Bool) (x : α) (l : List α) (y : α) :
    y ∈ orderedInsertB le x l ↔ y = x ∨ y ∈ l := by
  induction l with
  | nil => simp [orderedInsertB]
  | cons a t ih =>
    by_cases h : le x a = true
    · simp [orderedInsertB, h]
    · simp only [orderedInsertB, if_neg h, List.mem_cons, ih]
      tauto

theorem perm_orderedInsertB (le : α → α → Bool) (x : α) (l : List α) :
    (orderedInsertB le x l).Perm (x :: l) := by
  induction l with
  | nil => simp [orderedInsertB]
  | cons a t ih =>
    by_cases h : le x a = true
    · simp [orderedInsertB, h]
    · simp only [orderedInsertB, if_neg h]
      exact ((ih.cons a).trans (List.Perm.swap x a t))

theorem pySort_perm (le : α → α → Bool) (l : List α) : (pySort le l).Perm l := by
  induction l with
  | nil => simp [pySort]
  | cons a t ih =>
    exact (perm_orderedInsertB le a (pySort le t)).trans (ih.cons a)

theorem mem_pySort (le : α → α → Bool) (l : List α) (y : α) :
    y ∈ pySort le l ↔ y ∈ l := (pySort_perm le l).mem_iff

theorem pairwise_orderedInsertB (le : α → α → Bool)
    (htrans : ∀ a b c, le a b = true → le b c = true → le a c = true)
    (htotal : ∀ a b, le a b = true ∨ le b a = true) (x : α) (l : List α)
    (hl : l.Pairwise (fun a b => le a b = true)) :
    (orderedInsertB le x l).Pairwise (fun a b => le a b = true) := by
  induction l with
  | nil => simp [orderedInsertB]
  | cons a t ih =>
    rcases hl with _ | ⟨ha, ht⟩
    by_cases h : le x a = true
    · rw [orderedInsertB, if_pos h]
      refine List.Pairwise.cons ?_ (List.Pairwise.cons ha ht)
      intro b hb
      rcases List.mem_cons.mp hb with rfl | hb
      · exact h
      · exact htrans x a b h (ha b hb)
    · rw [orderedInsertB, if_neg h]
      refine List.Pairwise.cons ?_ (ih ht)
      intro b hb
      rcases (mem_orderedInsertB le x t b).mp hb with rfl | hb
      · rcases htotal a b with hab | hba
        · exact hab
        · exact absurd hba h
      · exact ha b hb

theorem pairwise_pySort (le : α → α → Bool)
    (htrans : ∀ a b c, le a b = true → le b c = true → le a c = true)
    (htotal : ∀ a b, le a b = true ∨ le b a = true) (l : List α) :
    (pySort le l).Pairwise (fun a b => le a b = true) := by
  induction l with
  | nil => simp [pySort]
  | cons a t ih => exact pairwise_orderedInsertB le htrans htotal a (pySort le t) ih

theorem nodup_pySort (le : α → α → Bool) (l : List α) (h : l.Nodup) :
    (pySort le l).Nodup := ((pySort_perm le l).nodup_iff).mpr h

theorem leadMatch_length {n h : List Char} (hm : leadMatch n h = true) :
    n.length ≤ h.length := by
  induction n generalizing h with
  | nil => simp
  | cons a as ih =>
    cases h with
    | nil => simp [leadMatch] at hm
    | cons b bs =>
      simp only [leadMatch, Bool.and_eq_true] at hm
      simpa using Nat.succ_le_succ (ih hm.2)

theorem containsSubL_length {n h : List Char} (hm : containsSubL n h = true) :
    n.length ≤ h.length := by
  induction h with
  | nil =>
    simp only [containsSubL, List.isEmpty_iff] at hm
    simp [hm]
  | cons b bs ih =>
    simp only [containsSubL, Bool.or_eq_true] at hm
    rcases hm with hm | hm
    · exact leadMatch_length hm
    · exact (ih hm).trans (by simp)

theorem leadMatch_subset {n h : List Char} (hm : leadMatch n h = true) :
    ∀ c ∈ n, c ∈ h := by
  induction n generalizing h with
  | nil => simp
  | cons a as ih =>
    cases h with
    | nil => simp [leadMatch] at hm
    | cons b bs =>
      simp only [leadMatch, Bool.and_eq_true, beq_iff_eq] at hm
      intro c hc
      rcases List.mem_cons.mp hc with rfl | hc
      · simp [hm.1]
      · exact List.mem_cons_of_mem b (ih hm.2 c hc)

theorem containsSubL_subset {n h : List Char} (hm : containsSubL n h = true) :
    ∀ c ∈ n, c ∈ h := by
  induction h with
  | nil =>
    simp only [containsSubL, List.isEmpty_iff] at hm
    simp [hm]
  | cons b bs ih =>
    simp only [containsSubL, Bool.or_eq_true] at hm
    rcases hm with hm | hm
    · exact leadMatch_subset hm
    · exact fun c hc => List.mem_cons_of_mem b (ih hm c hc)

theorem dropWhile_head_false {p : α → Bool} {l : List α} {c : α} {t : List α}
    (h : l.dropWhile p = c :: t) : p c = false := by
  induction l with
  | nil => simp [List.dropWhile] at h
  | cons a as ih =>
    by_cases hp : p a = true
    · rw [List.dropWhile_cons_of_pos hp] at h
      exact ih h
    · rw [List.dropWhile_cons_of_neg hp] at h
      cases h
      simpa using hp

theorem pyStripL_all_white {x : List Char} (h : pyStripL x = []) :
    ∀ c ∈ x, c.isWhitespace = true := by
  intro c hc
  unfold pyStripL at h
  rw [List.reverse_eq_nil_iff, List.dropWhile_eq_nil_iff] at h
  have hx : x = x.takeWhile Char.isWhitespace ++ x.dropWhile Char.isWhitespace :=
    (List.takeWhile_append_dropWhile Char.isWhitespace x).symm
  rw [hx] at hc
  rcases List.mem_append.mp hc with hc | hc
  · exact List.mem_takeWhile_imp hc
  · exact h c (by simpa using hc)

theorem pyStripL_exists_nonwhite {x : List Char} (h : pyStripL x ≠ []) :
    ∃ c ∈ pyStripL x, c.isWhitespace = false := by
  unfold pyStripL at h ⊢
  cases hyy : (x.dropWhile Char.isWhitespace).reverse.dropWhile Char.isWhitespace with
  | nil => rw [hyy] at h; simp at h
  | cons c t =>
    exact ⟨c, by simp, dropWhile_head_false hyy⟩

/-! ### Lemmas about the segmenter -/

theorem buildSections_eq (pid url : String) :
    ∀ (raw : List RawSection) (i : Nat) (acc : List SectionRow),
      buildSections pid url i raw acc = acc ++ sectionsFrom pid url i acc.length raw := by
  intro raw
  induction raw with
  | nil => intro i acc; simp [buildSections, sectionsFrom]
  | cons r rest ih =>
    intro i acc
    by_cases h : r.changes.isEmpty
    · simp [buildSections, sectionsFrom, h, ih]
    · simp only [buildSections, sectionsFrom, if_neg h, ih, List.length_append,
        List.length_cons, List.length_nil, Nat.add_zero]
      simp [List.append_assoc]

theorem mkChanges_map_text (sid sname url : String) :
    ∀ (ts : List String) (i : Nat), (mkChanges sid sname url i ts).map (·.text) = ts := by
  intro ts
  induction ts with
  | nil => intro i; simp [mkChanges]
  | cons t rest ih => intro i; simp [mkChanges, ih]

theorem mkChanges_get (sid sname url : String) :
    ∀ (ts : List String) (i k : Nat) (h : k < (mkChanges sid sname url i ts).length),
      ((mkChanges sid sname url i ts).get ⟨k, h⟩).id = sid ++ "-c" ++ toString (i + k) ∧
      ((mkChanges sid sname url i ts).get ⟨k, h⟩).order = i + k := by
  intro ts
  induction ts with
  | nil => intro i k h; simp [mkChanges] at h
  | cons t rest ih =>
    intro i k h
    cases k with
    | zero => simp [mkChanges]
    | succ k' =>
      have h' : k' < (mkChanges sid sname url (i + 1) rest).length := by
        simpa [mkChanges] using h
      have := ih (i + 1) k' h'
      simpa [mkChanges, Nat.add_assoc, Nat.add_comm 1 k'] using this

theorem mem_mkChanges (sid sname url : String) :
    ∀ (ts : List String) (i : Nat) (c : ChangeRow),
      c ∈ mkChanges sid sname url i ts → c.text ∈ ts := by
  intro ts
  induction ts with
  | nil => intro i c h; simp [mkChanges] at h
  | cons t rest ih =>
    intro i c h
    rcases List.mem_cons.mp h with rfl | h
    · simp
    · exact List.mem_cons_of_mem t (ih (i + 1) c h)

theorem sectionsFrom_map_id (pid url : String) :
    ∀ (raw : List RawSection) (i n : Nat),
      (sectionsFrom pid url i n raw).map (·.id)
        = (List.range' n (raw.filter (fun r => !r.changes.isEmpty)).length).map
            (fun m => pid ++ "-s" ++ toString m) := by
  intro raw
  induction raw with
  | nil => intro i n; simp [sectionsFrom]
  | cons r rest ih =>
    intro i n
    by_cases he : r.changes.isEmpty
    · rw [sectionsFrom.eq_def]
      simp only [if_pos he]
      rw [List.filter_cons_of_neg (by simp [he])]
      exact ih (i + 1) n
    · rw [sectionsFrom.eq_def]
      simp only [if_neg he]
      rw [List.filter_cons_of_pos (by simp [he])]
      simp only [List.length_cons, List.range'_succ, List.map_cons, mkSec]
      exact congrArg _ (ih (i + 1) (n + 1))

theorem mkChanges_map_id (sid sname url : String) :
    ∀ (ts : List String) (i : Nat),
      (mkChanges sid sname url i ts).map (·.id)
        = (List.range' i ts.length).map (fun m => sid ++ "-c" ++ toString m) := by
  intro ts
  induction ts with
  | nil => intro i; simp [mkChanges]
  | cons t rest ih =>
    intro i
    simp only [mkChanges, List.length_cons, List.range'_succ, List.map_cons]
    exact congrArg _ (ih (i + 1))

theorem mkChanges_map_order (sid sname url : String) :
    ∀ (ts : List String) (i : Nat),
      (mkChanges sid sname url i ts).map (·.order) = List.range' i ts.length := by
  intro ts
  induction ts with
  | nil => intro i; simp [mkChanges]
  | cons t rest ih =>
    intro i
    simp only [mkChanges, List.length_cons, List.range'_succ, List.map_cons]
    exact congrArg _ (ih (i + 1))

theorem mem_sectionsFrom (pid url : String) :
    ∀ (raw : List RawSection) (i n : Nat) (s : SectionRow),
      s ∈ sectionsFrom pid url i n raw →
      ∃ m j r, r ∈ raw ∧ r.changes.isEmpty = false ∧ s = mkSec pid url m j r := by
  intro raw
  induction raw with
  | nil => intro i n s h; simp [sectionsFrom] at h
  | cons r rest ih =>
    intro i n s h
    by_cases he : r.changes.isEmpty
    · rw [sectionsFrom, if_pos he] at h
      obtain ⟨m, j, r', hr', hne, hs⟩ := ih (i + 1) n s h
      exact ⟨m, j, r', List.mem_cons_of_mem r hr', hne, hs⟩
    · rw [sectionsFrom, if_neg he] at h
      rcases List.mem_cons.mp h with rfl | h
      · exact ⟨n, i, r, List.mem_cons_self r rest, by simpa using he, rfl⟩
      · obtain ⟨m, j, r', hr', hne, hs⟩ := ih (i + 1) (n + 1) s h
        exact ⟨m, j, r', List.mem_cons_of_mem r hr', hne, hs⟩

theorem sectionsFrom_map_profile (pid url : String) :
    ∀ (raw : List RawSection) (i n : Nat),
      (sectionsFrom pid url i n raw).map (fun s => (s.order, s.name, s.changes.map (·.text)))
        = ((withIdx i raw).filter (fun p => !p.2.changes.isEmpty)).map
            (fun p => (p.1, p.2.name, p.2.changes)) := by
  intro raw
  induction raw with
  | nil => intro i n; simp [sectionsFrom, withIdx]
  | cons r rest ih =>
    intro i n
    by_cases he : r.changes.isEmpty
    · rw [sectionsFrom, if_pos he]
      rw [withIdx, List.filter_cons]
      simp only [he, Bool.not_true, if_neg (by simp : ¬ (false = true))]
      exact ih (i + 1) n
    · rw [sectionsFrom, if_neg he]
      rw [withIdx, List.filter_cons]
      simp only [Bool.not_eq_true', he, if_pos (by simp [he] : (!r.changes.isEmpty) = true)]
      simp only [List.map_cons, mkSec, mkChanges_map_text]
      exact congrArg _ (ih (i + 1) (n + 1))

theorem mem_withIdx_fst_ge :
    ∀ (l : List α) (i : Nat) (p : Nat × α), p ∈ withIdx i l → i ≤ p.1 := by
  intro l
  induction l with
  | nil => intro i p hp; simp [withIdx] at hp
  | cons x t ih =>
    intro i p hp
    rw [withIdx] at hp
    rcases List.mem_cons.mp hp with rfl | hp
    · exact Nat.le_refl i
    · exact Nat.le_of_succ_le (ih (i + 1) p hp)

theorem withIdx_pairwise_fst (l : List α) :
    ∀ (i : Nat), (withIdx i l).Pairwise (fun a b => a.1 < b.1) := by
  induction l with
  | nil => intro i; simp [withIdx]
  | cons x t ih =>
    intro i
    rw [withIdx]
    refine List.Pairwise.cons ?_ (ih (i + 1))
    intro b hb
    exact Nat.lt_of_lt_of_le (Nat.lt_succ_self i) (mem_withIdx_fst_ge t (i + 1) b hb)

/-! ### Lemmas about the segmentation walk -/

theorem mem_appendToLast :
    ∀ (secs : List RawSection) (t : String) (r : RawSection),
      r ∈ appendToLast secs t →
      r ∈ secs ∨ ∃ r0, r0 ∈ secs ∧ r.name = r0.name ∧ r.changes = r0.changes ++ [t] := by
  intro secs
  induction secs with
  | nil => intro t r h; simp [appendToLast] at h
  | cons a rest ih =>
    intro t r h
    cases rest with
    | nil =>
      simp only [appendToLast, List.mem_singleton] at h
      subst h
      exact Or.inr ⟨a, List.mem_cons_self a [], rfl, rfl⟩
    | cons b bs =>
      rw [appendToLast] at h
      rcases List.mem_cons.mp h with rfl | h
      · exact Or.inl (List.mem_cons_self r (b :: bs))
      · rcases ih t r h with h' | ⟨r0, hr0, hn, hc⟩
        · exact Or.inl (List.mem_cons_of_mem a h')
        · exact Or.inr ⟨r0, List.mem_cons_of_mem a hr0, hn, hc⟩

theorem pairsOf_appendToLast :
    ∀ (secs : List RawSection) (t : String), secs ≠ [] →
      pairsOf (appendToLast secs t)
        = pairsOf secs ++ [((secs.getLastD ⟨"General", []⟩).name, t)] := by
  intro secs
  induction secs with
  | nil => intro t h; exact absurd rfl h
  | cons a rest ih =>
    intro t _
    cases rest with
    | nil => simp [appendToLast, pairsOf, List.flatMap_cons, List.getLastD]
    | cons b bs =>
      have hne : (b :: bs) ≠ ([] : List RawSection) := by simp
      rw [appendToLast]
      simp only [pairsOf, List.flatMap_cons] at *
      rw [ih t hne]
      simp [List.getLastD_cons, List.append_assoc]

theorem segmentWalk_pairs_nodup :
    ∀ (events : List ElementEvent) (secs : List RawSection) (seen : List (String × String)),
      secs ≠ [] → (pairsOf secs).Nodup → (∀ p ∈ pairsOf secs, p ∈ seen) →
      (pairsOf (segmentWalk events secs seen)).Nodup := by
  intro events
  induction events with
  | nil => intro secs seen _ hnd _; exact hnd
  | cons e rest ih =>
    intro secs seen hne hnd hsub
    rw [segmentWalk]
    by_cases htag : ¬ (e.tag = "h2" ∨ e.tag = "h3" ∨ e.tag = "li" ∨ e.tag = "p")
    · rw [if_pos htag]; exact ih secs seen hne hnd hsub
    rw [if_neg htag]
    by_cases htxt : normalize_space e.text = ""
    · rw [if_pos htxt]; exact ih secs seen hne hnd hsub
    rw [if_neg htxt]
    by_cases hhd : e.tag = "h2" ∨ e.tag = "h3"
    · rw [if_pos hhd]
      by_cases hrel : pyStrip (pyLower (normalize_space e.text)) = "related articles"
      · rw [if_pos hrel]; exact hnd
      rw [if_neg hrel]
      by_cases hkeep : should_keep_heading (normalize_space e.text) = true
      · rw [if_pos hkeep]
        refine ih _ seen (by simp) ?_ ?_
        · simpa [pairsOf] using hnd
        · intro p hp
          apply hsub
          simpa [pairsOf] using hp
      · rw [if_neg hkeep]; exact ih secs seen hne hnd hsub
    rw [if_neg hhd]
    by_cases hpli : e.tag = "p" ∧ e.parents.contains "li"
    · rw [if_pos hpli]; exact ih secs seen hne hnd hsub
    rw [if_neg hpli]
    by_cases hkc : should_keep_change (normalize_space e.text) = true
    · rw [if_pos hkc]
      by_cases hseen :
          ((secs.getLastD ⟨"General", []⟩).name, normalize_space e.text) ∈ seen
      · rw [if_pos hseen]; exact ih secs seen hne hnd hsub
      · rw [if_neg hseen]
        have hpairs := pairsOf_appendToLast secs (normalize_space e.text) hne
        refine ih _ _ ?_ ?_ ?_
        · cases secs with
          | nil => exact absurd rfl hne
          | cons a r =>
            cases r with
            | nil => simp [appendToLast]
            | cons b bs => simp [appendToLast]
        · rw [hpairs]
          refine List.Nodup.append hnd (by simp) ?_
          intro p hp hmem
          rcases List.mem_singleton.mp hmem with rfl
          exact hseen (hsub _ hp)
        · intro p hp
          rw [hpairs] at hp
          rcases List.mem_append.mp hp with hp | hp
          · exact List.mem_cons_of_mem _ (hsub p hp)
          · rcases List.mem_singleton.mp hp with rfl
            exact List.mem_cons_self _ seen
    · rw [if_neg hkc]; exact ih secs seen hne hnd hsub

theorem segmentWalk_changes_kept :
    ∀ (events : List ElementEvent) (secs : List RawSection) (seen : List (String × String)),
      (∀ r ∈ secs, ∀ t ∈ r.changes, should_keep_change t = true) →
      (∀ r ∈ segmentWalk events secs seen, ∀ t ∈ r.changes, should_keep_change t = true) := by
  intro events
  induction events with
  | nil => intro secs seen hkeep; exact hkeep
  | cons e rest ih =>
    intro secs seen hkeep
    rw [segmentWalk]
    by_cases htag : ¬ (e.tag = "h2" ∨ e.tag = "h3" ∨ e.tag = "li" ∨ e.tag = "p")
    · rw [if_pos htag]; exact ih secs seen hkeep
    rw [if_neg htag]
    by_cases htxt : normalize_space e.text = ""
    · rw [if_pos htxt]; exact ih secs seen hkeep
    rw [if_neg htxt]
    by_cases hhd : e.tag = "h2" ∨ e.tag = "h3"
    · rw [if_pos hhd]
      by_cases hrel : pyStrip (pyLower (normalize_space e.text)) = "related articles"
      · rw [if_pos hrel]; exact hkeep
      rw [if_neg hrel]
      by_cases hkh : should_keep_heading (normalize_space e.text) = true
      · rw [if_pos hkh]
        refine ih _ seen ?_
        intro r hr t ht
        rcases List.mem_append.mp hr with hr | hr
        · exact hkeep r hr t ht
        · rcases List.mem_singleton.mp hr with rfl
          simp at ht
      · rw [if_neg hkh]; exact ih secs seen hkeep
    rw [if_neg hhd]
    by_cases hpli : e.tag = "p" ∧ e.parents.contains "li"
    · rw [if_pos hpli]; exact ih secs seen hkeep
    rw [if_neg hpli]
    by_cases hkc : should_keep_change (normalize_space e.text) = true
    · rw [if_pos hkc]
      by_cases hseen :
          ((secs.getLastD ⟨"General", []⟩).name, normalize_space e.text) ∈ seen
      · rw [if_pos hseen]; exact ih secs seen hkeep
      · rw [if_neg hseen]
        refine ih _ _ ?_
        intro r hr t ht
        rcases mem_appendToLast secs (normalize_space e.text) r hr with hr' | ⟨r0, hr0, _, hc⟩
        · exact hkeep r hr' t ht
        · rw [hc] at ht
          rcases List.mem_append.mp ht with ht | ht
          · exact hkeep r0 hr0 t ht
          · rcases List.mem_singleton.mp ht with rfl
            exact hkc
    · rw [if_neg hkc]; exact ih secs seen hkeep

theorem withIdx_filter_snd (p : α → Bool) :
    ∀ (l : List α) (i : Nat),
      (((withIdx i l).filter (fun q => p q.2)).map (·.2)) = l.filter p := by
  intro l
  induction l with
  | nil => intro i; simp [withIdx]
  | cons x t ih =>
    intro i
    rw [withIdx, List.filter_cons, List.filter_cons]
    by_cases hp : p x = true
    · simp only [hp, if_pos rfl, List.map_cons]
      exact congrArg _ (ih (i + 1))
    · simp only [hp]
      simpa using ih (i + 1)

theorem parse_sections_eq (parsed : ParsedHTML) (url : String) :
    (parse_patch_notes_html parsed url).sections
      = sectionsFrom (parse_patch_notes_html parsed url).patch.id url 0 0
          (rawSectionsOf (scoped_events parsed)) := by
  show buildSections _ url 0 (rawSectionsOf (scoped_events parsed)) [] = _
  rw [buildSections_eq]
  rfl

/-- C7: `should_keep_change` returns `false` exactly when the lower-cased,
stripped text is empty, is in the noise set, starts with
`"related articles"`, contains both `"game updates"` and `"patch notes"`,
contains an ISO-8601 date-time pattern, or has length outside `[12, 500]`;
otherwise it returns `true`, and consequently every change text in a parsed
document passes the filter. -/
theorem claim_C7_change_filter (text : String) (parsed : ParsedHTML) (url : String) :
    (should_keep_change text = false ↔ keepChangeRejected text) ∧
    (∀ s ∈ (parse_patch_notes_html parsed url).sections, ∀ c ∈ s.changes,
      should_keep_change c.text = true) := by
  constructor
  · unfold should_keep_change keepChangeRejected
    dsimp only
    split_ifs with h1 h2 h3 h4 h5 h6 h7 <;>
      simp_all [List.elem_iff]
  · intro s hs c hc
    rw [parse_sections_eq] at hs
    obtain ⟨m, j, r, hr, _, rfl⟩ :=
      mem_sectionsFrom _ url (rawSectionsOf (scoped_events parsed)) 0 0 s hs
    have htext := mem_mkChanges _ r.name url r.changes 0 c hc
    have hkeep : ∀ r' ∈ rawSectionsOf (scoped_events parsed),
        ∀ t ∈ r'.changes, should_keep_change t = true := by
      apply segmentWalk_changes_kept
      intro r' hr' t ht
      rcases List.mem_singleton.mp hr' with rfl
      simp at ht
    exact hkeep r hr c.text htext

/-- C8: during the segmentation walk a change text is appended only when the
pair (current section name, text) is new, so the accumulated
`(sectionName, text)` pairs are duplicate-free; concretely, a repeated text
under one heading is kept once, while the same text under two differently
named headings yields two changes. -/
theorem claim_C8_walk_dedup (events : List ElementEvent) :
    (pairsOf (rawSectionsOf events)).Nodup ∧
    rawSectionsOf
        [⟨"h2", [], "Agent Updates", []⟩, ⟨"li", [], "Duplicate change text here", []⟩,
          ⟨"li", [], "Duplicate change text here", []⟩]
      = [⟨"General", []⟩, ⟨"Agent Updates", ["Duplicate change text here"]⟩] ∧
    rawSectionsOf
        [⟨"h2", [], "Agent Updates", []⟩, ⟨"li", [], "Duplicate change text here", []⟩,
          ⟨"h2", [], "Map Updates", []⟩, ⟨"li", [], "Duplicate change text here", []⟩]
      = [⟨"General", []⟩, ⟨"Agent Updates", ["Duplicate change text here"]⟩,
          ⟨"Map Updates", ["Duplicate change text here"]⟩] := by
  refine ⟨?_, by decide, by decide⟩
  apply segmentWalk_pairs_nodup events _ _ (by simp)
  · simp [pairsOf]
  · intro p hp
    simp [pairsOf] at hp

/-- C10: a retained section's `order` is its index in the raw encounter
sequence (General and empty sections included), so orders strictly increase
but are in general non-contiguous, do not have to start at 0, and differ from
the dense index in the section id, as the concrete document with an empty
General section shows (`order = 1` next to id `latest-s0`). -/
theorem claim_C10_section_order (parsed : ParsedHTML) (url : String) :
    ((parse_patch_notes_html parsed url).sections.map
        (fun s => (s.order, s.name, s.changes.map (·.text)))
      = ((withIdx 0 (rawSectionsOf (scoped_events parsed))).filter
          (fun p => !p.2.changes.isEmpty)).map (fun p => (p.1, p.2.name, p.2.changes))) ∧
    ((parse_patch_notes_html parsed url).sections.map (·.order)).Pairwise (· < ·) ∧
    ((parse_patch_notes_html ⟨none, [],
        [⟨"h2", [], "Agent Updates", []⟩, ⟨"li", [], "Reyna nerfed significantly", []⟩]⟩
        "u").sections.map (fun s => (s.id, s.order)) = [("latest-s0", 1)]) := by
  have h1 : (parse_patch_notes_html parsed url).sections.map
        (fun s => (s.order, s.name, s.changes.map (·.text)))
      = ((withIdx 0 (rawSectionsOf (scoped_events parsed))).filter
          (fun p => !p.2.changes.isEmpty)).map (fun p => (p.1, p.2.name, p.2.changes)) := by
    rw [parse_sections_eq]
    exact sectionsFrom_map_profile _ url _ 0 0
  refine ⟨h1, ?_, by decide⟩
  have h2 : (parse_patch_notes_html parsed url).sections.map (·.order)
      = (((withIdx 0 (rawSectionsOf (scoped_events parsed))).filter
          (fun p => !p.2.changes.isEmpty)).map (·.1)) := by
    have := congrArg (List.map Prod.fst) h1
    simpa [List.map_map, Function.comp] using this
  rw [h2]
  rw [List.pairwise_map]
  exact List.Pairwise.filter _ (withIdx_pairwise_fst _ 0)

/-- C1: the parser retains exactly the raw sections (the implicit General
section included) that still have changes after filtering, in encounter
order; section ids are `"{patchId}-s{n}"` with `n` the dense index among
retained sections; change ids are `"{sectionId}-c{m}"` with `m` the dense
index (equal to `order`) within the section; and parsing is deterministic:
the function is pure, so two runs on the same input are equal. -/
theorem claim_C1_segmentation_ids (parsed : ParsedHTML) (url : String) :
    ((parse_patch_notes_html parsed url).sections.map
        (fun s => (s.name, s.changes.map (·.text)))
      = ((rawSectionsOf (scoped_events parsed)).filter
          (fun r => !r.changes.isEmpty)).map (fun r => (r.name, r.changes))) ∧
    ((parse_patch_notes_html parsed url).sections.map (·.id)
      = (List.range (parse_patch_notes_html parsed url).sections.length).map
          (fun m => (parse_patch_notes_html parsed url).patch.id ++ "-s" ++ toString m)) ∧
    (∀ s ∈ (parse_patch_notes_html parsed url).sections,
      s.changes.map (·.id)
          = (List.range s.changes.length).map (fun m => s.id ++ "-c" ++ toString m) ∧
        s.changes.map (·.order) = List.range s.changes.length) ∧
    parse_patch_notes_html parsed url = parse_patch_notes_html parsed url := by
  refine ⟨?_, ?_, ?_, rfl⟩
  · have h1 := sectionsFrom_map_profile
      (parse_patch_notes_html parsed url).patch.id url
      (rawSectionsOf (scoped_events parsed)) 0 0
    rw [parse_sections_eq]
    have := congrArg (List.map Prod.snd) h1
    rw [List.map_map, List.map_map] at this
    have h2 := congrArg (List.map (fun r : RawSection => (r.name, r.changes)))
      (withIdx_filter_snd (fun r : RawSection => !r.changes.isEmpty)
        (rawSectionsOf (scoped_events parsed)) 0)
    rw [List.map_map] at h2
    calc (sectionsFrom (parse_patch_notes_html parsed url).patch.id url 0 0
            (rawSectionsOf (scoped_events parsed))).map
          (fun s => (s.name, s.changes.map (·.text)))
        = ((withIdx 0 (rawSectionsOf (scoped_events parsed))).filter
            (fun p => !p.2.changes.isEmpty)).map (fun p => (p.2.name, p.2.changes)) := this
      _ = ((rawSectionsOf (scoped_events parsed)).filter
            (fun r => !r.changes.isEmpty)).map (fun r => (r.name, r.changes)) := h2
  · rw [parse_sections_eq, sectionsFrom_map_id]
    have hlen : (sectionsFrom (parse_patch_notes_html parsed url).patch.id url 0 0
          (rawSectionsOf (scoped_events parsed))).length
        = ((rawSectionsOf (scoped_events parsed)).filter
            (fun r => !r.changes.isEmpty)).length := by
      have := congrArg List.length
        (sectionsFrom_map_id (parse_patch_notes_html parsed url).patch.id url
          (rawSectionsOf (scoped_events parsed)) 0 0)
      simpa using this
    rw [hlen, List.range_eq_range']
  · intro s hs
    rw [parse_sections_eq] at hs
    obtain ⟨m, j, r, _, _, rfl⟩ :=
      mem_sectionsFrom _ url (rawSectionsOf (scoped_events parsed)) 0 0 s hs
    have hmlen : (mkChanges ((parse_patch_notes_html parsed url).patch.id ++ "-s" ++ toString m)
          r.name url 0 r.changes).length = r.changes.length := by
      have := congrArg List.length (mkChanges_map_text
        ((parse_patch_notes_html parsed url).patch.id ++ "-s" ++ toString m) r.name url
        r.changes 0)
      simpa using this
    constructor
    · show (mkChanges ((parse_patch_notes_html parsed url).patch.id ++ "-s" ++ toString m)
            r.name url 0 r.changes).map (·.id)
          = (List.range (mkChanges ((parse_patch_notes_html parsed url).patch.id ++ "-s"
              ++ toString m) r.name url 0 r.changes).length).map
              (fun k => ((parse_patch_notes_html parsed url).patch.id ++ "-s" ++ toString m)
                ++ "-c" ++ toString k)
      rw [mkChanges_map_id, hmlen, List.range_eq_range']
    · show (mkChanges ((parse_patch_notes_html parsed url).patch.id ++ "-s" ++ toString m)
            r.name url 0 r.changes).map (·.order)
          = List.range (mkChanges ((parse_patch_notes_html parsed url).patch.id ++ "-s"
              ++ toString m) r.name url 0 r.changes).length
      rw [mkChanges_map_order, hmlen, List.range_eq_range']

theorem claim_C1_segmentation_ids_witness :
    (parse_patch_notes_html ⟨none, [],
        [⟨"h2", [], "Agent Updates", []⟩, ⟨"li", [], "Reyna nerfed significantly", []⟩]⟩
        "u").sections.map (·.id)
      = (List.range (parse_patch_notes_html ⟨none, [],
          [⟨"h2", [], "Agent Updates", []⟩, ⟨"li", [], "Reyna nerfed significantly", []⟩]⟩
          "u").sections.length).map
          (fun m => (parse_patch_notes_html ⟨none, [],
            [⟨"h2", [], "Agent Updates", []⟩, ⟨"li", [], "Reyna nerfed significantly", []⟩]⟩
            "u").patch.id ++ "-s" ++ toString m) :=
  (claim_C1_segmentation_ids ⟨none, [],
    [⟨"h2", [], "Agent Updates", []⟩, ⟨"li", [], "Reyna nerfed significantly", []⟩]⟩ "u").2.1

theorem claim_C7_change_filter_witness :
    (should_keep_change "Share" = false ↔ keepChangeRejected "Share") ∧
    (∀ s ∈ (parse_patch_notes_html ⟨none, [],
        [⟨"li", [], "Reyna nerfed significantly", []⟩]⟩ "u").sections,
      ∀ c ∈ s.changes, should_keep_change c.text = true) :=
  claim_C7_change_filter "Share" ⟨none, [], [⟨"li", [], "Reyna nerfed significantly", []⟩]⟩ "u"

/-! ### Lemmas for the link-candidate ranking -/

theorem candBefore_trans (a b c : Candidate) (h1 : candBefore a b = true)
    (h2 : candBefore b c = true) : candBefore a c = true := by
  unfold candBefore at *
  dsimp only at *
  split_ifs at * <;> simp_all [decide_eq_true_eq] <;> omega

theorem candBefore_total (a b : Candidate) :
    candBefore a b = true ∨ candBefore b a = true := by
  unfold candBefore
  dsimp only
  split_ifs <;> simp_all [decide_eq_true_eq] <;> omega

theorem pyMinByOrder_spec :
    ∀ (rest : List Candidate) (c : Candidate),
      pyMinByOrder c rest ∈ c :: rest ∧ (pyMinByOrder c rest).order ≤ c.order ∧
      ∀ x ∈ rest, (pyMinByOrder c rest).order ≤ x.order := by
  intro rest
  induction rest with
  | nil => intro c; exact ⟨List.mem_cons_self c [], Nat.le_refl _, by simp⟩
  | cons x xs ih =>
    intro c
    have hstep : pyMinByOrder c (x :: xs)
        = pyMinByOrder (if x.order < c.order then x else c) xs := by
      simp [pyMinByOrder, List.foldl_cons]
    by_cases hx : x.order < c.order
    · rw [hstep, if_pos hx]
      obtain ⟨hmem, hle, hall⟩ := ih x
      refine ⟨?_, ?_, ?_⟩
      · rcases List.mem_cons.mp hmem with hm | hm
        · rw [hm]; exact List.mem_cons_of_mem c (List.mem_cons_self _ xs)
        · exact List.mem_cons_of_mem c (List.mem_cons_of_mem x hm)
      · exact Nat.le_trans hle (Nat.le_of_lt hx)
      · intro y hy
        rcases List.mem_cons.mp hy with rfl | hy
        · exact hle
        · exact hall y hy
    · rw [hstep, if_neg hx]
      obtain ⟨hmem, hle, hall⟩ := ih c
      refine ⟨?_, hle, ?_⟩
      · rcases List.mem_cons.mp hmem with hm | hm
        · rw [hm]; exact List.mem_cons_self _ _
        · exact List.mem_cons_of_mem c (List.mem_cons_of_mem x hm)
      · intro y hy
        rcases List.mem_cons.mp hy with rfl | hy
        · exact Nat.le_trans hle (Nat.le_of_not_lt hx)
        · exact hall y hy

/-- C4: on a non-empty candidate list, if some candidate has a parsed
version the selected link has a version that is lexicographically maximal
and, among candidates with that same version, the smallest document order;
if no candidate has a version, the selected link has the smallest document
order overall.  The spec's tie-break example selects the middle
candidate. -/
theorem claim_C4_version_ranking (cands : List Candidate) (hne : cands ≠ []) :
    (∃ sel, selectCurrentPatch cands = some sel ∧ sel ∈ cands ∧
      ((∃ c ∈ cands, c.patch_tuple.isSome = true) →
        sel.patch_tuple.isSome = true ∧
        ∀ c ∈ cands, ∀ v w, c.patch_tuple = some v → sel.patch_tuple = some w →
          verLe v w ∧ (v = w → sel.order ≤ c.order)) ∧
      ((∀ c ∈ cands, c.patch_tuple = none) → ∀ c ∈ cands, sel.order ≤ c.order)) ∧
    selectCurrentPatch
        [⟨"a", "ua", some (11, 1), 0⟩, ⟨"b", "ub", some (11, 2), 1⟩,
          ⟨"c", "uc", some (11, 2), 2⟩]
      = some ⟨"b", "ub", some (11, 2), 1⟩ := by
  refine ⟨?_, by decide⟩
  cases cands with
  | nil => exact absurd rfl hne
  | cons c rest =>
    rw [selectCurrentPatch]
    cases hv : (c :: rest).filter (fun item => item.patch_tuple.isSome) with
    | nil =>
      obtain ⟨hmem, hle, hall⟩ := pyMinByOrder_spec rest c
      refine ⟨pyMinByOrder c rest, rfl, hmem, ?_, ?_⟩
      · rintro ⟨c', hc', hsome⟩
        have : c' ∈ (c :: rest).filter (fun item => item.patch_tuple.isSome) :=
          List.mem_filter.mpr ⟨hc', hsome⟩
        rw [hv] at this
        simp at this
      · intro _ x hx
        rcases List.mem_cons.mp hx with rfl | hx
        · exact hle
        · exact hall x hx
    | cons v vs =>
      cases hs : pySort candBefore (v :: vs) with
      | nil =>
        have := pySort_perm candBefore (v :: vs)
        rw [hs] at this
        exact absurd this.symm (by simp)
      | cons sel tail =>
        have hselmem : sel ∈ (c :: rest).filter (fun item => item.patch_tuple.isSome) := by
          rw [hv]
          have : sel ∈ pySort candBefore (v :: vs) := by rw [hs]; simp
          exact (mem_pySort candBefore (v :: vs) sel).mp this
        have hselcands : sel ∈ c :: rest := List.mem_of_mem_filter hselmem
        have hselsome : sel.patch_tuple.isSome = true := by
          simpa using List.of_mem_filter hselmem
        have hsorted := pairwise_pySort candBefore candBefore_trans
          (fun a b => candBefore_total a b) (v :: vs)
        rw [hs] at hsorted
        have hhead : ∀ y ∈ tail, candBefore sel y = true :=
          fun y hy => List.rel_of_pairwise_cons hsorted hy
        refine ⟨sel, rfl, hselcands, ?_, ?_⟩
        · intro _
          refine ⟨hselsome, ?_⟩
          intro c' hc' vv ww hvv hww
          have hc'f : c' ∈ (c :: rest).filter (fun item => item.patch_tuple.isSome) :=
            List.mem_filter.mpr ⟨hc', by simp [hvv]⟩
          rw [hv] at hc'f
          have hc's : c' ∈ sel :: tail := by
            rw [← hs]
            exact (mem_pySort candBefore (v :: vs) c').mpr hc'f
          rcases List.mem_cons.mp hc's with rfl | hc't
          · rw [hvv] at hww
            cases hww
            exact ⟨Or.inr ⟨rfl, Nat.le_refl _⟩, fun _ => Nat.le_refl _⟩
          · have hb := hhead c' hc't
            unfold candBefore at hb
            rw [hww, hvv] at hb
            dsimp only [Option.getD] at hb
            constructor
            · unfold verLe
              split_ifs at hb <;> simp_all [decide_eq_true_eq] <;> omega
            · intro hvw
              rw [hvw] at hb
              simp only [ne_eq, not_true_eq_false, if_false, ite_self,
                decide_eq_true_eq] at hb
              simpa using hb
        · intro hnone
          have := hnone sel hselcands
          rw [this] at hselsome
          simp at hselsome

theorem claim_C4_version_ranking_witness :
    selectCurrentPatch
        [⟨"a", "ua", some (11, 1), 0⟩, ⟨"b", "ub", some (11, 2), 1⟩,
          ⟨"c", "uc", some (11, 2), 2⟩]
      = some ⟨"b", "ub", some (11, 2), 1⟩ :=
  (claim_C4_version_ranking
    [⟨"a", "ua", some (11, 1), 0⟩, ⟨"b", "ub", some (11, 2), 1⟩,
      ⟨"c", "uc", some (11, 2), 2⟩] (by decide)).2

/-- C3: over a roster whose agents all carry a non-empty uuid (the shape the
pipeline produces), `detect_agent_mentions` reports a uuid exactly when some
agent with that uuid has an alias whose normalized form has length at least 3
and occurs space-delimited in the space-padded normalized change text, and
the returned list is duplicate-free. -/
theorem claim_C3_alias_matching (text : String) (agents : List Agent)
    (hvalid : ∀ a ∈ agents, a.uuid ≠ "") :
    (∀ u, u ∈ detect_agent_mentions text agents ↔
      ∃ a ∈ agents, a.uuid = u ∧ mentionCond a text) ∧
    (detect_agent_mentions text agents).Nodup := by
  unfold detect_agent_mentions
  dsimp only
  by_cases hstrip : pyStripL (' ' :: (normalize_for_match text).data ++ [' ']) = []
  · rw [if_pos hstrip]
    refine ⟨?_, List.nodup_nil⟩
    intro u
    simp only [List.not_mem_nil, false_iff]
    rintro ⟨a, _, _, al, _, hlen, hcontain⟩
    have hallwhite := pyStripL_all_white hstrip
    have hsubset := containsSubL_subset hcontain
    have hna : (normalize_for_match al).data ≠ [] := by
      intro h0
      have : (normalize_for_match al).length = 0 := by
        show (normalize_for_match al).data.length = 0
        rw [h0]; rfl
      omega
    obtain ⟨c, hcmem, hcw⟩ :
        ∃ c ∈ (normalize_for_match al).data, c.isWhitespace = false :=
      pyStripL_exists_nonwhite hna
    have hcnt : c ∈ ' ' :: (normalize_for_match text).data ++ [' '] :=
      hsubset c (by simp [hcmem])
    have := hallwhite c hcnt
    rw [this] at hcw
    cases hcw
  · rw [if_neg hstrip]
    constructor
    · intro u
      rw [mem_pySort, List.mem_dedup, List.mem_filterMap]
      constructor
      · rintro ⟨a, ha, hfa⟩
        by_cases h1 : a.uuid = ""
        · rw [if_pos h1] at hfa; cases hfa
        · rw [if_neg h1] at hfa
          by_cases h2 : (aliasListOf a).any
              (aliasMatches (' ' :: (normalize_for_match text).data ++ [' '])) = true
          · rw [if_pos h2] at hfa
            cases hfa
            refine ⟨a, ha, rfl, ?_⟩
            obtain ⟨al, hal, hmatch⟩ := List.any_eq_true.mp h2
            unfold aliasMatches at hmatch
            dsimp only at hmatch
            by_cases hlen : (normalize_for_match al).data.length < 3
            · rw [if_pos hlen] at hmatch; cases hmatch
            · rw [if_neg hlen] at hmatch
              refine ⟨al, hal, ?_, hmatch⟩
              show 3 ≤ (normalize_for_match al).data.length
              omega
          · rw [if_neg h2] at hfa; cases hfa
      · rintro ⟨a, ha, huuid, al, hal, hlen, hcont⟩
        refine ⟨a, ha, ?_⟩
        rw [if_neg (huuid ▸ hvalid a ha)]
        rw [if_pos ?_]
        · rw [huuid]
        · refine List.any_eq_true.mpr ⟨al, hal, ?_⟩
          unfold aliasMatches
          dsimp only
          rw [if_neg ?_]
          · exact hcont
          · have : 3 ≤ (normalize_for_match al).data.length := hlen
            omega
    · exact nodup_pySort _ _ (List.nodup_dedup _)

theorem claim_C3_alias_matching_witness :
    ("123" ∈ detect_agent_mentions "Reyna's Leer duration reduced"
        [⟨"123", "Reyna", some "Duelist", none, ["Dismiss", "Leer"],
          ["Dismiss", "Leer", "Reyna"]⟩] ↔
      ∃ a ∈ [(⟨"123", "Reyna", some "Duelist", none, ["Dismiss", "Leer"],
          ["Dismiss", "Leer", "Reyna"]⟩ : Agent)], a.uuid = "123" ∧
        mentionCond a "Reyna's Leer duration reduced") ∧
    "123" ∈ detect_agent_mentions "Reyna's Leer duration reduced"
      [⟨"123", "Reyna", some "Duelist", none, ["Dismiss", "Leer"],
        ["Dismiss", "Leer", "Reyna"]⟩] :=
  ⟨(claim_C3_alias_matching "Reyna's Leer duration reduced"
      [⟨"123", "Reyna", some "Duelist", none, ["Dismiss", "Leer"],
        ["Dismiss", "Leer", "Reyna"]⟩] (by decide)).1 "123",
    by decide⟩

/-- C6 counterexample: with the query containing both aliases, the agent
whose *matching alias* is longest (`"longalias"`, 9 characters) is returned
*after* the agent with the longer *name* (`"Yyyyy"`): the Cypher orders by
`size(name)`, not by the length of the matching alias, refuting the claim's
ordering at this input. -/
theorem claim_C6_resolve_agents_counterexample :
    resolve_agents
        ⟨[], [], [], [⟨"u1", "Xx", none, none, [], ["longalias"]⟩,
          ⟨"u2", "Yyyyy", none, none, [], ["abc"]⟩], [], [], []⟩
        "longalias abc"
      = [("u2", "Yyyyy"), ("u1", "Xx")] ∧
    ("abc" : String).length < ("longalias" : String).length ∧
    (∀ al ∈ coalesceAliases (⟨"u1", "Xx", none, none, [], ["longalias"]⟩ : Agent),
      al = "longalias") ∧
    (∀ al ∈ coalesceAliases (⟨"u2", "Yyyyy", none, none, [], ["abc"]⟩ : Agent),
      al = "abc") := by
  refine ⟨by decide, by decide, ?_, ?_⟩ <;> (intro al hal; simpa [coalesceAliases] using hal)

theorem resolveAgents_eq (st : Store) (query : String) :
    resolve_agents st query
      = (pySort (fun x y => decide (y.2.length ≤ x.2.length)) (resolveRows st query)).take 4 :=
  rfl

/-- C6 (amended): `_resolve_agents` returns at most 4 rows; every returned
row is the `(uuid, name)` of a stored agent one of whose aliases is a
case-insensitive substring of the query; when at most 4 distinct rows match,
every matching row is returned; and the result is ordered by the length of
the agent *name* descending (not by the length of the matching alias). -/
theorem claim_C6_resolve_agents_amended (st : Store) (query : String) :
    (resolve_agents st query).length ≤ 4 ∧
    (∀ r ∈ resolve_agents st query,
      ∃ a ∈ st.agents, (a.uuid, a.name) = r ∧ agentQueryMatch query a) ∧
    ((resolveRows st query).length ≤ 4 →
      ∀ r ∈ resolveRows st query, r ∈ resolve_agents st query) ∧
    (resolve_agents st query).Pairwise (fun x y => y.2.length ≤ x.2.length) := by
  rw [resolveAgents_eq]
  refine ⟨?_, ?_, ?_, ?_⟩
  · simp
  · intro r hr
    have hr1 : r ∈ pySort (fun x y => decide (y.2.length ≤ x.2.length))
        (resolveRows st query) := List.mem_of_mem_take hr
    rw [mem_pySort] at hr1
    unfold resolveRows at hr1
    rw [List.mem_dedup, List.mem_map] at hr1
    obtain ⟨a, haf, rfl⟩ := hr1
    have hmem := List.mem_of_mem_filter haf
    have hp := List.of_mem_filter haf
    obtain ⟨al, hal, hmatch⟩ := List.any_eq_true.mp hp
    exact ⟨a, hmem, rfl, al, hal, hmatch⟩
  · intro hle r hr
    have hlen : (pySort (fun x y => decide (y.2.length ≤ x.2.length))
        (resolveRows st query)).length = (resolveRows st query).length :=
      (pySort_perm _ _).length_eq
    rw [List.take_of_length_le (by omega)]
    rw [mem_pySort]
    exact hr
  · have hsorted := pairwise_pySort (fun x y : String × String =>
        decide (y.2.length ≤ x.2.length))
      (fun a b c h1 h2 => by simp only [decide_eq_true_eq] at *; omega)
      (fun a b => by
        rcases Nat.le_total b.2.length a.2.length with h | h
        · exact Or.inl (by simpa using h)
        · exact Or.inr (by simpa using h))
      (resolveRows st query)
    have := List.Pairwise.sublist (List.take_sublist 4 _) hsorted
    exact this.imp (fun h => by simpa using h)

theorem claim_C6_resolve_agents_amended_witness :
    (resolve_agents ⟨[], [], [], [⟨"u1", "Reyna", none, none, [], ["Reyna"]⟩],
        [], [], []⟩ "buff Reyna").length ≤ 4 :=
  (claim_C6_resolve_agents_amended
    ⟨[], [], [], [⟨"u1", "Reyna", none, none, [], ["Reyna"]⟩], [], [], []⟩ "buff Reyna").1

/-- C5 counterexample: a store error that *is* a `Neo4jError` but is *not*
the error signalling a missing full-text index is nevertheless caught by the
`except Neo4jError` handler and converted into the (here empty) fallback
result instead of propagating, refuting the claim that exactly the
index-missing error is caught. -/
theorem claim_C5_error_handling_counterexample :
    query_by_fulltext ⟨[], [], [], [], [], [], []⟩
        (Except.error ⟨true, false⟩) "harbor" 5
      = Except.ok [] ∧
    (⟨true, false⟩ : StoreErr).indexMissing = false ∧
    (⟨true, false⟩ : StoreErr).isNeo4jError = true := by
  refine ⟨?_, rfl, rfl⟩
  rfl

/-- C5 (amended): around the full-text path, *every* store error of the
`Neo4jError` class (not only the index-missing one) is caught and converted
into the fallback path — a case-insensitive substring match on change text
or section name with fixed score `1.0`, ordered by
`(sectionOrder, changeOrder)` ascending and truncated to `k` — while a
non-`Neo4jError` failure propagates to the caller, as does the row list of a
successful full-text call (converted records). -/
theorem claim_C5_error_handling_amended (st : Store) (q : String) (k : Nat)
    (e : StoreErr) (rows : List QueryRow) :
    (query_by_fulltext st (Except.ok rows) q k = Except.ok (rows.map record_to_change)) ∧
    (e.isNeo4jError = true →
      query_by_fulltext st (Except.error e) q k = Except.ok (fallbackQuery st q k)) ∧
    (e.isNeo4jError = false →
      query_by_fulltext st (Except.error e) q k = Except.error e) ∧
    (fallbackQuery st q k).length ≤ k ∧
    (∀ r ∈ fallbackQuery st q k, r.score = 1 ∧
      (strContains (pyLower r.text) (pyLower q) = true ∨
        strContains (pyLower r.section_name) (pyLower q) = true)) ∧
    ((fallbackSorted st q).take k).Pairwise (fun a b =>
      a.2.1.order < b.2.1.order ∨
        (a.2.1.order = b.2.1.order ∧ a.2.2.order ≤ b.2.2.order)) := by
  refine ⟨rfl, ?_, ?_, ?_, ?_, ?_⟩
  · intro he; simp [query_by_fulltext, he]
  · intro he; simp [query_by_fulltext, he]
  · unfold fallbackQuery
    simp
  · intro r hr
    unfold fallbackQuery at hr
    rw [List.mem_map] at hr
    obtain ⟨path, hpath, rfl⟩ := hr
    have hp1 : path ∈ fallbackSorted st q := List.mem_of_mem_take hpath
    unfold fallbackSorted at hp1
    rw [mem_pySort] at hp1
    have hmatch := List.of_mem_filter hp1
    unfold fallbackMatch at hmatch
    rw [Bool.or_eq_true] at hmatch
    exact ⟨rfl, hmatch⟩
  · have hsorted := pairwise_pySort fallbackLe
      (fun a b c h1 h2 => by
        unfold fallbackLe at *
        simp only [Bool.or_eq_true, Bool.and_eq_true, decide_eq_true_eq] at *
        omega)
      (fun a b => by
        unfold fallbackLe
        simp only [Bool.or_eq_true, Bool.and_eq_true, decide_eq_true_eq]
        omega)
      ((fallbackPaths st).filter (fallbackMatch q))
    have htake := List.Pairwise.sublist (List.take_sublist k _) hsorted
    refine List.Pairwise.imp ?_ htake
    intro a b h
    unfold fallbackLe at h
    simp only [Bool.or_eq_true, Bool.and_eq_true, decide_eq_true_eq] at h
    exact h

theorem claim_C5_error_handling_amended_witness :
    query_by_fulltext
        ⟨[⟨"12.02", none, none, none⟩], [⟨"12.02-s0", "Agent Updates", 0, "12.02"⟩],
          [⟨"12.02-s0-c0", "Harbor fixed a bug with High Tide", "Agent Updates", "u", 0⟩],
          [], [("12.02", "12.02-s0")], [("12.02-s0", "12.02-s0-c0")], []⟩
        (Except.error ⟨true, true⟩) "Harbor" 8
      = Except.ok (fallbackQuery
          ⟨[⟨"12.02", none, none, none⟩], [⟨"12.02-s0", "Agent Updates", 0, "12.02"⟩],
            [⟨"12.02-s0-c0", "Harbor fixed a bug with High Tide", "Agent Updates", "u", 0⟩],
            [], [("12.02", "12.02-s0")], [("12.02-s0", "12.02-s0-c0")], []⟩
          "Harbor" 8) ∧
    fallbackQuery
        ⟨[⟨"12.02", none, none, none⟩], [⟨"12.02-s0", "Agent Updates", 0, "12.02"⟩],
          [⟨"12.02-s0-c0", "Harbor fixed a bug with High Tide", "Agent Updates", "u", 0⟩],
          [], [("12.02", "12.02-s0")], [("12.02-s0", "12.02-s0-c0")], []⟩
        "Harbor" 8
      = [⟨"12.02-s0-c0", "12.02", "Agent Updates", "Harbor fixed a bug with High Tide",
          "u", 1, []⟩] :=
  ⟨(claim_C5_error_handling_amended
      ⟨[⟨"12.02", none, none, none⟩], [⟨"12.02-s0", "Agent Updates", 0, "12.02"⟩],
        [⟨"12.02-s0-c0", "Harbor fixed a bug with High Tide", "Agent Updates", "u", 0⟩],
        [], [("12.02", "12.02-s0")], [("12.02-s0", "12.02-s0-c0")], []⟩
      "Harbor" 8 ⟨true, true⟩ []).2.1 rfl,
    by decide⟩

/-! ### Preservation of store well-formedness (for C2) -/

theorem map_key_update {α β : Type} (key : α → β) (l : List α) (node : α) (k : β)
    [DecidableEq β] (hk : key node = k) :
    (l.map (fun a => if key a = k then node else a)).map key = l.map key := by
  rw [List.map_map]
  apply List.map_congr_left
  intro a _
  dsimp only [Function.comp]
  split_ifs with h
  · rw [hk, h]
  · rfl

theorem nodup_map_filter {α β : Type} (f : α → β) (p : α → Bool) (l : List α)
    (h : (l.map f).Nodup) : ((l.filter p).map f).Nodup :=
  List.Nodup.sublist (List.Sublist.map f (List.filter_sublist l)) h

theorem nodup_append_one {α : Type} (l : List α) (x : α) (h : l.Nodup) (hx : x ∉ l) :
    (l ++ [x]).Nodup := by
  rw [List.nodup_append]
  exact ⟨h, List.nodup_singleton x, fun a ha hmem => by
    rcases List.mem_singleton.mp hmem with rfl
    exact hx ha⟩

theorem foldl_preserve {α β : Type} (P : β → Prop) (f : β → α → β)
    (hf : ∀ b a, P b → P (f b a)) :
    ∀ (l : List α) (b : β), P b → P (l.foldl f b) := by
  intro l
  induction l with
  | nil => intro b hb; exact hb
  | cons x t ih => intro b hb; exact ih (f b x) (hf b x hb)

theorem mergeAgentRow_wf (st : Store) (row : Agent) (h : StoreNodup st) :
    StoreNodup (mergeAgentRow st row) := by
  obtain ⟨h1, h2, h3, h4, h5, h6, h7⟩ := h
  unfold mergeAgentRow
  split_ifs with hex
  · exact ⟨h1, h2, h3, by rw [map_key_update (·.uuid) st.agents row row.uuid rfl]; exact h4,
      h5, h6, h7⟩
  · refine ⟨h1, h2, h3, ?_, h5, h6, h7⟩
    rw [List.map_append]
    apply nodup_append_one _ _ h4
    intro hmem
    rw [List.mem_map] at hmem
    obtain ⟨a, ha, hau⟩ := hmem
    rw [List.any_eq_true] at hex
    exact hex ⟨a, ha, by simp [hau]⟩

theorem upsert_agents_wf (st : Store) (agents : List Agent) (h : StoreNodup st) :
    StoreNodup (upsert_agents st agents) := by
  unfold upsert_agents
  split_ifs
  · exact h
  · exact foldl_preserve StoreNodup mergeAgentRow mergeAgentRow_wf agents st h

theorem mergePatchNode_wf (st : Store) (p : PatchMeta) (h : StoreNodup st) :
    StoreNodup (mergePatchNode st p) := by
  obtain ⟨h1, h2, h3, h4, h5, h6, h7⟩ := h
  unfold mergePatchNode
  split_ifs with hex
  · exact ⟨by rw [map_key_update (·.id) st.patches _ p.id rfl]; exact h1,
      h2, h3, h4, h5, h6, h7⟩
  · refine ⟨?_, h2, h3, h4, h5, h6, h7⟩
    rw [List.map_append]
    apply nodup_append_one _ _ h1
    intro hmem
    rw [List.mem_map] at hmem
    obtain ⟨a, ha, hau⟩ := hmem
    rw [List.any_eq_true] at hex
    exact hex ⟨a, ha, by simp [hau]⟩

theorem clear_patch_subgraph_wf (st : Store) (pid : String) (h : StoreNodup st) :
    StoreNodup (clear_patch_subgraph st pid) := by
  obtain ⟨h1, h2, h3, h4, h5, h6, h7⟩ := h
  unfold clear_patch_subgraph
  split_ifs
  · exact ⟨h1, nodup_map_filter _ _ _ h2, nodup_map_filter _ _ _ h3, h4,
      List.Nodup.filter _ h5, List.Nodup.filter _ h6, List.Nodup.filter _ h7⟩
  · exact ⟨h1, h2, h3, h4, h5, h6, h7⟩

theorem mergeSectionNode_wf (st : Store) (pid : String) (row : SectionRow)
    (h : StoreNodup st) : StoreNodup (mergeSectionNode st pid row) := by
  obtain ⟨h1, h2, h3, h4, h5, h6, h7⟩ := h
  unfold mergeSectionNode
  dsimp only
  split_ifs with hex
  · exact ⟨h1, by rw [map_key_update (·.id) st.sections _ row.id rfl]; exact h2,
      h3, h4, h5, h6, h7⟩
  · refine ⟨h1, ?_, h3, h4, h5, h6, h7⟩
    rw [List.map_append]
    apply nodup_append_one _ _ h2
    intro hmem
    rw [List.mem_map] at hmem
    obtain ⟨a, ha, hau⟩ := hmem
    rw [List.any_eq_true] at hex
    exact hex ⟨a, ha, by simp [hau]⟩

theorem addHasSection_wf (st : Store) (e : String × String) (h : StoreNodup st) :
    StoreNodup (addHasSection st e) := by
  obtain ⟨h1, h2, h3, h4, h5, h6, h7⟩ := h
  unfold addHasSection
  split_ifs with hmem
  · exact ⟨h1, h2, h3, h4, h5, h6, h7⟩
  · exact ⟨h1, h2, h3, h4, nodup_append_one _ _ h5 hmem, h6, h7⟩

theorem createSection_wf (st : Store) (pid : String) (row : SectionRow)
    (h : StoreNodup st) : StoreNodup (createSection st pid row) := by
  unfold createSection
  split_ifs
  · exact addHasSection_wf _ _ (mergeSectionNode_wf st pid row h)
  · exact h

theorem mergeChangeNode_wf (st : Store) (c : ChangeRow) (h : StoreNodup st) :
    StoreNodup (mergeChangeNode st c) := by
  obtain ⟨h1, h2, h3, h4, h5, h6, h7⟩ := h
  unfold mergeChangeNode
  dsimp only
  split_ifs with hex
  · exact ⟨h1, h2, by rw [map_key_update (·.id) st.changes _ c.id rfl]; exact h3,
      h4, h5, h6, h7⟩
  · refine ⟨h1, h2, ?_, h4, h5, h6, h7⟩
    rw [List.map_append]
    apply nodup_append_one _ _ h3
    intro hmem
    rw [List.mem_map] at hmem
    obtain ⟨a, ha, hau⟩ := hmem
    rw [List.any_eq_true] at hex
    exact hex ⟨a, ha, by simp [hau]⟩

theorem addHasChange_wf (st : Store) (e : String × String) (h : StoreNodup st) :
    StoreNodup (addHasChange st e) := by
  obtain ⟨h1, h2, h3, h4, h5, h6, h7⟩ := h
  unfold addHasChange
  split_ifs with hmem
  · exact ⟨h1, h2, h3, h4, h5, h6, h7⟩
  · exact ⟨h1, h2, h3, h4, h5, nodup_append_one _ _ h6 hmem, h7⟩

theorem mergeChangeRow_wf (sid : String) (st : Store) (c : ChangeRow)
    (h : StoreNodup st) : StoreNodup (mergeChangeRow sid st c) :=
  addHasChange_wf _ _ (mergeChangeNode_wf st c h)

theorem createChanges_wf (st : Store) (sid : String) (rows : List ChangeRow)
    (h : StoreNodup st) : StoreNodup (createChanges st sid rows) := by
  unfold createChanges
  split_ifs
  · exact foldl_preserve StoreNodup (mergeChangeRow sid)
      (fun b a hb => mergeChangeRow_wf sid b a hb) rows st h
  · exact h

theorem upsert_patch_wf (st : Store) (doc : PatchDoc) (h : StoreNodup st) :
    StoreNodup (upsert_patch st doc).1 := by
  unfold upsert_patch
  dsimp only
  apply foldl_preserve StoreNodup _ ?_ doc.sections _
    (clear_patch_subgraph_wf _ _ (mergePatchNode_wf st doc.patch h))
  intro b row hb
  dsimp only
  split_ifs
  · exact createSection_wf b doc.patch.id row hb
  · exact createChanges_wf _ _ _ (createSection_wf b doc.patch.id row hb)

theorem mergeMention_wf (cid : String) (st : Store) (uuid : String)
    (h : StoreNodup st) : StoreNodup (mergeMention cid st uuid) := by
  obtain ⟨h1, h2, h3, h4, h5, h6, h7⟩ := h
  unfold mergeMention
  split_ifs with _ hmem
  · exact ⟨h1, h2, h3, h4, h5, h6, h7⟩
  · exact ⟨h1, h2, h3, h4, h5, h6, nodup_append_one _ _ h7 hmem⟩
  · exact ⟨h1, h2, h3, h4, h5, h6, h7⟩

theorem relinkStep_wf (agents : List Agent) (acc : Store × Nat) (rec : String × String)
    (h : StoreNodup acc.1) : StoreNodup (relinkStep agents acc rec).1 := by
  unfold relinkStep
  dsimp only
  split_ifs
  · exact h
  · exact foldl_preserve StoreNodup (mergeMention rec.1)
      (fun b a hb => mergeMention_wf rec.1 b a hb) _ _ h
  · exact h

theorem relink_wf (st : Store) (pid : String) (agents : List Agent)
    (h : StoreNodup st) : StoreNodup (relink_patch_agent_mentions st pid agents).1 := by
  obtain ⟨h1, h2, h3, h4, h5, h6, h7⟩ := h
  unfold relink_patch_agent_mentions
  split_ifs
  · exact ⟨h1, h2, h3, h4, h5, h6, h7⟩
  · dsimp only
    refine foldl_preserve (fun (acc : Store × Nat) => StoreNodup acc.1)
      (relinkStep agents) (fun b a hb => relinkStep_wf agents b a hb) _ _ ?_
    exact ⟨h1, h2, h3, h4, h5, h6, List.Nodup.filter _ h7⟩

theorem materializeSession_wf (st : Store) (doc : PatchDoc) (agents : List Agent)
    (h : StoreNodup st) : StoreNodup (materializeSession st doc agents).1 := by
  unfold materializeSession
  dsimp only
  exact relink_wf _ _ _ (upsert_patch_wf _ _ (upsert_agents_wf st agents h))

/-- C2: on any well-formed store, materializing the same `PatchDocument`
with the same roster twice returns the same `(sectionCount, changeCount)`
both times (both are functions of the document alone), and the store after
the second run still has no duplicate `Patch`/`Section`/`Change`/`Agent`
nodes and no duplicate `HAS_SECTION`/`HAS_CHANGE`/`MENTIONS_AGENT` edges,
because the materializer clears the patch subgraph before recreating it and
every node/edge write is a keyed merge. -/
theorem claim_C2_idempotent_materialization (st : Store) (doc : PatchDoc)
    (agents : List Agent) (h : StoreNodup st) :
    ((materializeSession st doc agents).2.1
        = (materializeSession (materializeSession st doc agents).1 doc agents).2.1) ∧
    ((materializeSession st doc agents).2.2.1
        = (materializeSession (materializeSession st doc agents).1 doc agents).2.2.1) ∧
    (materializeSession st doc agents).2.1 = doc.sections.length ∧
    (materializeSession st doc agents).2.2.1
        = (doc.sections.map (fun s => s.changes.length)).sum ∧
    StoreNodup (materializeSession st doc agents).1 ∧
    StoreNodup (materializeSession (materializeSession st doc agents).1 doc agents).1 := by
  refine ⟨rfl, rfl, rfl, rfl, materializeSession_wf st doc agents h, ?_⟩
  exact materializeSession_wf _ doc agents (materializeSession_wf st doc agents h)

theorem claim_C2_idempotent_materialization_witness :
    ((materializeSession ⟨[], [], [], [], [], [], []⟩
        ⟨⟨"12.02", some "t", some "u", none⟩,
          [⟨"12.02-s0", "Agent Updates", 1, [⟨"12.02-s0-c0", "Reyna buffed a lot",
            "Agent Updates", "u", 0⟩]⟩]⟩
        [⟨"a1", "Reyna", none, none, ["Leer"], ["Leer", "Reyna"]⟩]).2.1
      = (materializeSession (materializeSession ⟨[], [], [], [], [], [], []⟩
          ⟨⟨"12.02", some "t", some "u", none⟩,
            [⟨"12.02-s0", "Agent Updates", 1, [⟨"12.02-s0-c0", "Reyna buffed a lot",
              "Agent Updates", "u", 0⟩]⟩]⟩
          [⟨"a1", "Reyna", none, none, ["Leer"], ["Leer", "Reyna"]⟩]).1
          ⟨⟨"12.02", some "t", some "u", none⟩,
            [⟨"12.02-s0", "Agent Updates", 1, [⟨"12.02-s0-c0", "Reyna buffed a lot",
              "Agent Updates", "u", 0⟩]⟩]⟩
          [⟨"a1", "Reyna", none, none, ["Leer"], ["Leer", "Reyna"]⟩]).2.1) ∧
    StoreNodup (materializeSession (materializeSession ⟨[], [], [], [], [], [], []⟩
        ⟨⟨"12.02", some "t", some "u", none⟩,
          [⟨"12.02-s0", "Agent Updates", 1, [⟨"12.02-s0-c0", "Reyna buffed a lot",
            "Agent Updates", "u", 0⟩]⟩]⟩
        [⟨"a1", "Reyna", none, none, ["Leer"], ["Leer", "Reyna"]⟩]).1
        ⟨⟨"12.02", some "t", some "u", none⟩,
          [⟨"12.02-s0", "Agent Updates", 1, [⟨"12.02-s0-c0", "Reyna buffed a lot",
            "Agent Updates", "u", 0⟩]⟩]⟩
        [⟨"a1", "Reyna", none, none, ["Leer"], ["Leer", "Reyna"]⟩]).1 :=
  ⟨(claim_C2_idempotent_materialization ⟨[], [], [], [], [], [], []⟩
      ⟨⟨"12.02", some "t", some "u", none⟩,
        [⟨"12.02-s0", "Agent Updates", 1, [⟨"12.02-s0-c0", "Reyna buffed a lot",
          "Agent Updates", "u", 0⟩]⟩]⟩
      [⟨"a1", "Reyna", none, none, ["Leer"], ["Leer", "Reyna"]⟩] (by decide)).1,
    (claim_C2_idempotent_materialization ⟨[], [], [], [], [], [], []⟩
      ⟨⟨"12.02", some "t", some "u", none⟩,
        [⟨"12.02-s0", "Agent Updates", 1, [⟨"12.02-s0-c0", "Reyna buffed a lot",
          "Agent Updates", "u", 0⟩]⟩]⟩
      [⟨"a1", "Reyna", none, none, ["Leer"], ["Leer", "Reyna"]⟩] (by decide)).2.2.2.2.2⟩

/-! ### Lemmas about the mention relinker (for C9) -/

theorem detect_mem_exists (t : String) (agents : List Agent) (u : String)
    (hu : u ∈ detect_agent_mentions t agents) :
    ∃ a ∈ agents, a.uuid = u ∧ u ≠ "" := by
  unfold detect_agent_mentions at hu
  dsimp only at hu
  by_cases hstrip : pyStripL (' ' :: (normalize_for_match t).data ++ [' ']) = []
  · rw [if_pos hstrip] at hu
    cases hu
  · rw [if_neg hstrip] at hu
    rw [mem_pySort, List.mem_dedup, List.mem_filterMap] at hu
    obtain ⟨a, ha, hfa⟩ := hu
    by_cases h1 : a.uuid = ""
    · rw [if_pos h1] at hfa; cases hfa
    · rw [if_neg h1] at hfa
      by_cases h2 : (aliasListOf a).any
          (aliasMatches (' ' :: (normalize_for_match t).data ++ [' '])) = true
      · rw [if_pos h2] at hfa
        cases hfa
        exact ⟨a, ha, rfl, h1⟩
      · rw [if_neg h2] at hfa; cases hfa

theorem detect_nodup (t : String) (agents : List Agent) :
    (detect_agent_mentions t agents).Nodup := by
  unfold detect_agent_mentions
  dsimp only
  split_ifs
  · exact List.nodup_nil
  · exact nodup_pySort _ _ (List.nodup_dedup _)

theorem pathRecords_mem (st : Store) (pid : String) (rec : String × String)
    (h : rec ∈ pathRecords st pid) :
    ∃ c ∈ st.changes, c.id = rec.1 ∧ c.text = rec.2 := by
  unfold pathRecords at h
  split_ifs at h
  · rw [List.mem_flatMap] at h
    obtain ⟨s, _, hrec⟩ := h
    rw [List.mem_map] at hrec
    obtain ⟨c, hc, rfl⟩ := hrec
    exact ⟨c, List.mem_of_mem_filter hc, rfl, rfl⟩
  · cases h

theorem foldl_mergeMention_eq (cid : String) :
    ∀ (us : List String) (s : Store), us.Nodup →
      (∀ u ∈ us, s.agents.any (fun a => a.uuid = u) = true) →
      (∀ u ∈ us, (cid, u) ∉ s.mentions) →
      us.foldl (mergeMention cid) s
        = { s with mentions := s.mentions ++ us.map (fun u => (cid, u)) } := by
  intro us
  induction us with
  | nil => intro s _ _ _; simp
  | cons u rest ih =>
    intro s hnd hag hnm
    rw [List.foldl_cons]
    have hmerge : mergeMention cid s u
        = { s with mentions := s.mentions ++ [(cid, u)] } := by
      unfold mergeMention
      rw [if_pos (hag u (List.mem_cons_self u rest))]
      rw [if_neg (hnm u (List.mem_cons_self u rest))]
    rw [hmerge]
    have hag' : ∀ v ∈ rest,
        (({ s with mentions := s.mentions ++ [(cid, u)] } : Store).agents.any
          (fun a => a.uuid = v)) = true :=
      fun v hv => hag v (List.mem_cons_of_mem u hv)
    have hnm' : ∀ v ∈ rest,
        (cid, v) ∉ ({ s with mentions := s.mentions ++ [(cid, u)] } : Store).mentions := by
      intro v hv hmem
      rcases List.mem_append.mp hmem with hmem | hmem
      · exact hnm v (List.mem_cons_of_mem u hv) hmem
      · rcases List.mem_singleton.mp hmem with heq
        have hvu : v = u := by
          have := congrArg Prod.snd heq
          simpa using this
        rw [List.nodup_cons] at hnd
        exact hnd.1 (hvu ▸ hv)
    rw [ih _ (List.Nodup.of_cons hnd) hag' hnm']
    simp [List.append_assoc]

theorem relinkStep_eq (agents : List Agent) (s : Store) (n : Nat) (rec : String × String)
    (hchange : s.changes.any (fun c => c.id = rec.1) = true)
    (hag : ∀ u ∈ detect_agent_mentions rec.2 agents,
      s.agents.any (fun a => a.uuid = u) = true)
    (hnm : ∀ u ∈ detect_agent_mentions rec.2 agents, (rec.1, u) ∉ s.mentions) :
    relinkStep agents (s, n) rec
      = ({ s with mentions := s.mentions
            ++ (detect_agent_mentions rec.2 agents).map (fun u => (rec.1, u)) },
          n + (detect_agent_mentions rec.2 agents).length) := by
  unfold relinkStep
  dsimp only
  by_cases hemp : (detect_agent_mentions rec.2 agents).isEmpty = true
  · rw [if_pos hemp]
    rw [List.isEmpty_iff] at hemp
    rw [hemp]
    simp
  · rw [if_neg hemp]
    rw [if_pos hchange]
    rw [foldl_mergeMention_eq rec.1 _ s (detect_nodup rec.2 agents) hag hnm]

theorem foldl_relinkStep_spec (agents : List Agent) :
    ∀ (recs : List (String × String)) (s : Store) (n : Nat),
      ((recs.map (·.1)).Nodup) →
      (∀ rec ∈ recs, s.changes.any (fun c => c.id = rec.1) = true) →
      (∀ rec ∈ recs, ∀ u ∈ detect_agent_mentions rec.2 agents,
        s.agents.any (fun a => a.uuid = u) = true) →
      (∀ rec ∈ recs, ∀ u ∈ detect_agent_mentions rec.2 agents, (rec.1, u) ∉ s.mentions) →
      recs.foldl (relinkStep agents) (s, n)
        = ({ s with mentions := s.mentions ++ recs.flatMap (fun rec =>
              (detect_agent_mentions rec.2 agents).map (fun u => (rec.1, u))) },
            n + (recs.flatMap (fun rec =>
              (detect_agent_mentions rec.2 agents).map (fun u => (rec.1, u)))).length) := by
  intro recs
  induction recs with
  | nil => intro s n _ _ _ _; simp
  | cons rec rest ih =>
    intro s n hnd hch hag hnm
    rw [List.foldl_cons]
    rw [relinkStep_eq agents s n rec (hch rec (List.mem_cons_self rec rest))
      (hag rec (List.mem_cons_self rec rest)) (hnm rec (List.mem_cons_self rec rest))]
    rw [List.map_cons, List.nodup_cons] at hnd
    rw [ih _ _ hnd.2 ?_ ?_ ?_]
    · refine Prod.ext ?_ ?_
      · dsimp only
        congr 1
        rw [List.flatMap_cons, List.append_assoc]
      · dsimp only
        rw [List.flatMap_cons]
        simp [Nat.add_assoc]
    · intro r hr
      exact hch r (List.mem_cons_of_mem rec hr)
    · intro r hr u hu
      exact hag r (List.mem_cons_of_mem rec hr) u hu
    · intro r hr u hu hmem
      rcases List.mem_append.mp hmem with hmem | hmem
      · exact hnm r (List.mem_cons_of_mem rec hr) u hu hmem
      · rw [List.mem_map] at hmem
        obtain ⟨v, _, heq⟩ := hmem
        have : r.1 = rec.1 := by
          have := congrArg Prod.fst heq
          simpa using this.symm
        exact hnd.1 (this ▸ List.mem_map_of_mem (·.1) hr)

theorem derived_fst_mem (agents : List Agent) :
    ∀ (recs : List (String × String)) (e : String × String),
      e ∈ recs.flatMap (fun rec =>
        (detect_agent_mentions rec.2 agents).map (fun u => (rec.1, u))) →
      e.1 ∈ recs.map (·.1) := by
  intro recs e he
  rw [List.mem_flatMap] at he
  obtain ⟨rec, hrec, hmem⟩ := he
  rw [List.mem_map] at hmem
  obtain ⟨u, _, rfl⟩ := hmem
  exact List.mem_map_of_mem (·.1) hrec

theorem derived_nodup (agents : List Agent) :
    ∀ (recs : List (String × String)), ((recs.map (·.1)).Nodup) →
      (recs.flatMap (fun rec =>
        (detect_agent_mentions rec.2 agents).map (fun u => (rec.1, u)))).Nodup := by
  intro recs
  induction recs with
  | nil => intro _; simp
  | cons rec rest ih =>
    intro hnd
    rw [List.map_cons, List.nodup_cons] at hnd
    rw [List.flatMap_cons]
    refine List.Nodup.append ?_ (ih hnd.2) ?_
    · refine List.Nodup.map ?_ (detect_nodup rec.2 agents)
      intro a b hab
      have := congrArg Prod.snd hab
      simpa using this
    · intro e hein hemem
      have h1 : e.1 = rec.1 := by
        rw [List.mem_map] at hein
        obtain ⟨u, _, rfl⟩ := hein
        rfl
      have h2 := derived_fst_mem agents rest e hemem
      rw [h1] at h2
      exact hnd.1 h2

/-- C9 counterexample: with an *empty* roster, `relink_patch_agent_mentions`
returns 0 without deleting anything: the pre-existing `MENTIONS_AGENT` edge
`("c1", "a1")` of patch `p1`'s change survives, refuting the claim for the
empty roster it explicitly includes. -/
theorem claim_C9_relink_counterexample :
    (relink_patch_agent_mentions
        ⟨[⟨"p1", none, none, none⟩], [⟨"s1", "Sec", 0, "p1"⟩],
          [⟨"c1", "Reyna duration reduced", "Sec", "u", 0⟩],
          [⟨"a1", "Reyna", none, none, [], ["Reyna"]⟩],
          [("p1", "s1")], [("s1", "c1")], [("c1", "a1")]⟩
        "p1" []).1.mentions = [("c1", "a1")] ∧
    (relink_patch_agent_mentions
        ⟨[⟨"p1", none, none, none⟩], [⟨"s1", "Sec", 0, "p1"⟩],
          [⟨"c1", "Reyna duration reduced", "Sec", "u", 0⟩],
          [⟨"a1", "Reyna", none, none, [], ["Reyna"]⟩],
          [("p1", "s1")], [("s1", "c1")], [("c1", "a1")]⟩
        "p1" []).2 = 0 ∧
    "c1" ∈ (pathRecords
        ⟨[⟨"p1", none, none, none⟩], [⟨"s1", "Sec", 0, "p1"⟩],
          [⟨"c1", "Reyna duration reduced", "Sec", "u", 0⟩],
          [⟨"a1", "Reyna", none, none, [], ["Reyna"]⟩],
          [("p1", "s1")], [("s1", "c1")], [("c1", "a1")]⟩ "p1").map (·.1) := by
  refine ⟨by decide, by decide, by decide⟩

/-- C9 (amended): for a *non-empty* roster whose agents (all with non-empty
uuids present as `Agent` nodes) exist in the store, and a store whose
per-patch change rows have distinct change ids,
`relink_patch_agent_mentions` first deletes every existing `MENTIONS_AGENT`
edge from the patch's changes (those whose target agent node exists), then
re-derives the mention edges from the roster and returns their number — all
derived edges are new and pairwise distinct, so the count is the number of
edges created.  With an empty roster it is a no-op returning 0. -/
theorem claim_C9_relink_amended (st : Store) (pid : String) (agents : List Agent)
    (hne : agents ≠ [])
    (hrecs : ((pathRecords st pid).map (·.1)).Nodup)
    (hpres : ∀ a ∈ agents, a.uuid ≠ "" → st.agents.any (fun b => b.uuid = a.uuid) = true) :
    (relink_patch_agent_mentions st pid agents).1
        = { st with mentions := mentionsAfterClear st pid ++ derivedMentions st pid agents } ∧
    (relink_patch_agent_mentions st pid agents).2 = (derivedMentions st pid agents).length ∧
    (∀ e ∈ st.mentions, e.1 ∈ (pathRecords st pid).map (·.1) →
      st.agents.any (fun a => a.uuid = e.2) = true → e ∉ mentionsAfterClear st pid) ∧
    (∀ e ∈ derivedMentions st pid agents, e ∉ mentionsAfterClear st pid) ∧
    (derivedMentions st pid agents).Nodup := by
  have hagentsOf : ∀ (t : String), ∀ u ∈ detect_agent_mentions t agents,
      st.agents.any (fun b => b.uuid = u) = true := by
    intro t u hu
    obtain ⟨a, ha, rfl, hne'⟩ := detect_mem_exists t agents u hu
    exact hpres a ha hne'
  have hclear : ∀ e ∈ st.mentions, e.1 ∈ (pathRecords st pid).map (·.1) →
      st.agents.any (fun a => a.uuid = e.2) = true → e ∉ mentionsAfterClear st pid := by
    intro e _ hA hB hmem
    have := List.of_mem_filter hmem
    rw [decide_eq_true_eq] at this
    exact this ⟨hA, hB⟩
  have hderivednew : ∀ e ∈ derivedMentions st pid agents,
      e ∉ mentionsAfterClear st pid := by
    intro e he hmem
    have hmem' := List.mem_of_mem_filter hmem
    have hA := derived_fst_mem agents (pathRecords st pid) e he
    have hB : st.agents.any (fun a => a.uuid = e.2) = true := by
      unfold derivedMentions at he
      rw [List.mem_flatMap] at he
      obtain ⟨rec, hrec, hemem⟩ := he
      rw [List.mem_map] at hemem
      obtain ⟨u, hu, rfl⟩ := hemem
      exact hagentsOf rec.2 u hu
    exact hclear e hmem' hA hB hmem
  have hmain : relink_patch_agent_mentions st pid agents
      = ({ st with mentions := mentionsAfterClear st pid ++ derivedMentions st pid agents },
          (derivedMentions st pid agents).length) := by
    unfold relink_patch_agent_mentions
    rw [if_neg (by simpa [List.isEmpty_iff] using hne)]
    dsimp only
    have hfold := foldl_relinkStep_spec agents (pathRecords st pid)
      ({ st with mentions := mentionsAfterClear st pid }) 0 hrecs ?_ ?_ ?_
    · rw [show pathRecords { st with mentions := st.mentions.filter (fun e =>
          ¬ (e.1 ∈ (pathRecords st pid).map (·.1) ∧
            st.agents.any (fun a => a.uuid = e.2))) } pid = pathRecords st pid from rfl]
      rw [show ({ st with mentions := st.mentions.filter (fun e =>
          ¬ (e.1 ∈ (pathRecords st pid).map (·.1) ∧
            st.agents.any (fun a => a.uuid = e.2))) } : Store)
          = { st with mentions := mentionsAfterClear st pid } from rfl]
      rw [hfold]
      rw [Nat.zero_add]
      rfl
    · intro rec hrec
      obtain ⟨c, hc, hcid, _⟩ := pathRecords_mem st pid rec hrec
      exact List.any_eq_true.mpr ⟨c, hc, by simp [hcid]⟩
    · intro rec _ u hu
      exact hagentsOf rec.2 u hu
    · intro rec hrec u hu hmem
      have := List.of_mem_filter hmem
      rw [decide_eq_true_eq] at this
      exact this ⟨List.mem_map_of_mem (·.1) hrec, hagentsOf rec.2 u hu⟩
  refine ⟨by rw [hmain], by rw [hmain], hclear, hderivednew, ?_⟩
  exact derived_nodup agents (pathRecords st pid) hrecs

theorem claim_C9_relink_amended_witness :
    (relink_patch_agent_mentions
        ⟨[⟨"p1", none, none, none⟩], [⟨"s1", "Sec", 0, "p1"⟩],
          [⟨"c1", "Reyna duration reduced", "Sec", "u", 0⟩],
          [⟨"a1", "Reyna", none, none, [], ["Reyna"]⟩],
          [("p1", "s1")], [("s1", "c1")], []⟩
        "p1" [⟨"a1", "Reyna", none, none, [], ["Reyna"]⟩]).2
      = (derivedMentions
          ⟨[⟨"p1", none, none, none⟩], [⟨"s1", "Sec", 0, "p1"⟩],
            [⟨"c1", "Reyna duration reduced", "Sec", "u", 0⟩],
            [⟨"a1", "Reyna", none, none, [], ["Reyna"]⟩],
            [("p1", "s1")], [("s1", "c1")], []⟩
          "p1" [⟨"a1", "Reyna", none, none, [], ["Reyna"]⟩]).length ∧
    derivedMentions
        ⟨[⟨"p1", none, none, none⟩], [⟨"s1", "Sec", 0, "p1"⟩],
          [⟨"c1", "Reyna duration reduced", "Sec", "u", 0⟩],
          [⟨"a1", "Reyna", none, none, [], ["Reyna"]⟩],
          [("p1", "s1")], [("s1", "c1")], []⟩
        "p1" [⟨"a1", "Reyna", none, none, [], ["Reyna"]⟩] = [("c1", "a1")] :=
  ⟨(claim_C9_relink_amended
      ⟨[⟨"p1", none, none, none⟩], [⟨"s1", "Sec", 0, "p1"⟩],
        [⟨"c1", "Reyna duration reduced", "Sec", "u", 0⟩],
        [⟨"a1", "Reyna", none, none, [], ["Reyna"]⟩],
        [("p1", "s1")], [("s1", "c1")], []⟩
      "p1" [⟨"a1", "Reyna", none, none, [], ["Reyna"]⟩]
      (by decide) (by decide) (by decide)).2.1,
    by decide⟩
